import Mathlib

/-!
Verification of the wildcard-curation tool (`python_app/utils.py`,
`python_app/app.py`, `python_app/api.py`).

The program manipulates an in-memory tree of Python dicts.  A leaf is a dict
with the two keys `instruction` (a string) and `wildcards` (a list of
strings); a branch is a dict mapping child names to further dicts, possibly
together with an `instruction` string entry.  We embed that value universe as
the mutual inductive `Node`/`Entries` below (an association list with
insertion order, exactly like a Python dict whose keys are unique).

Python string primitives (`str.split`, `str.strip`, `str.startswith`,
`str.replace`, comparison used by `sorted`) are modelled by structurally
recursive functions over `List Char`, because the built-in `String`
operations of this toolchain do not reduce inside the kernel.  Each model is
a direct translation of the CPython semantics used by the program: splitting
on a one-character separator, stripping ASCII whitespace, code-point
lexicographic comparison.

Raising Python code is modelled with `Except String`; the error payload is
the exception class name or message.  Code paths that are unreachable for
well-formed program states (for example calling `reconstruct_yaml_structure`
on a bare string, which the program never does) are totalised with a
documented default.
-/

/-! ### Character-level models of the Python string primitives -/

/-- Python `str.strip` whitespace set: space, tab, newline, carriage return,
vertical tab, form feed. -/
def pyIsSpace (c : Char) : Bool :=
  c = ' ' || c = '\t' || c = '\n' || c = '\r' || c = Char.ofNat 11 || c = Char.ofNat 12

/-- Drop leading whitespace characters. -/
def trimLeftChars (l : List Char) : List Char :=
  l.dropWhile pyIsSpace

/-- Drop trailing whitespace characters. -/
def trimRightChars (l : List Char) : List Char :=
  (l.reverse.dropWhile pyIsSpace).reverse

/-- Python `str.strip()`. -/
def pyStrip (s : String) : String :=
  ⟨trimLeftChars (trimRightChars s.data)⟩

/-- Prefix test on character lists (Python `str.startswith`). -/
def isPrefixChars : List Char → List Char → Bool
  | [], _ => true
  | _ :: _, [] => false
  | a :: as, b :: bs => a = b && isPrefixChars as bs

/-- Python `str.startswith`. -/
def pyStartsWith (s pre : String) : Bool :=
  isPrefixChars pre.data s.data

/-- Remove the first occurrence of `pat` (Python `str.replace(pat, "", 1)`).
When `pat` occurs as a prefix this is exactly `drop pat.length`. -/
def replaceFirstChars (pat : List Char) : List Char → List Char
  | [] => []
  | c :: cs =>
    if isPrefixChars pat (c :: cs) then (c :: cs).drop pat.length
    else c :: replaceFirstChars pat cs

/-- Python `str.replace(old, "", 1)` as used on comment prefixes. -/
def pyReplaceFirst (s pat : String) : String :=
  ⟨replaceFirstChars pat.data s.data⟩

/-- Replace every occurrence of the character `c` by `repl`
(Python `str.replace` with a one-character pattern). -/
def replaceChar (c : Char) (repl : List Char) : List Char → List Char
  | [] => []
  | x :: xs => if x = c then repl ++ replaceChar c repl xs else x :: replaceChar c repl xs

/-- Python `str.replace(c, repl)` for a one-character pattern. -/
def pyReplaceChar (s : String) (c : Char) (repl : String) : String :=
  ⟨replaceChar c repl.data s.data⟩

/-- Python `str.split(sep)` for a one-character separator, on char lists:
`"a/b" ↦ ["a","b"]`, `"" ↦ [""]`, `"a//b" ↦ ["a","","b"]`. -/
def splitCharList (c : Char) : List Char → List (List Char)
  | [] => [[]]
  | x :: xs =>
    match splitCharList c xs with
    | [] => [[x]]
    | h :: t => if x = c then [] :: h :: t else (x :: h) :: t

/-- Python `path.split("/")` (one-character separator). -/
def pySplit (c : Char) (s : String) : List String :=
  (splitCharList c s.data).map (fun l => ⟨l⟩)

/-- Python `sep.join(parts)`. -/
def pyJoin (sep : String) : List String → String
  | [] => ""
  | [x] => x
  | x :: y :: xs => x ++ sep ++ pyJoin sep (y :: xs)

/-- Code-point lexicographic `≤` on char lists (the order used by Python
string comparison and `sorted`). -/
def charListLe : List Char → List Char → Bool
  | [], _ => true
  | _ :: _, [] => false
  | a :: as, b :: bs => if a = b then charListLe as bs else decide (a < b)

/-- Python string `≤`. -/
def pyLe (s t : String) : Bool :=
  charListLe s.data t.data

/-- Insert into a `pyLe`-sorted list keeping it sorted. -/
def insertSorted (x : String) : List String → List String
  | [] => [x]
  | y :: ys => if pyLe x y then x :: y :: ys else y :: insertSorted x ys

/-- Python `sorted` on a list of strings (insertion sort; any comparison
sort of strings yields the same output list, since equal strings are
identical). -/
def sortStrings : List String → List String
  | [] => []
  | x :: xs => insertSorted x (sortStrings xs)

/-! ### The value universe of the program state -/

mutual
/-- A Python value reachable in the wildcard tree: a string, a list of
strings, or a dict. -/
inductive Node where
  | vStr (s : String)
  | vList (ws : List String)
  | vDict (entries : Entries)

/-- The entries of a Python dict, in insertion order (keys are unique in
every dict the program builds). -/
inductive Entries where
  | nil
  | cons (key : String) (v : Node) (rest : Entries)
end

/-- Python dict lookup `d.get(k)` / `d[k]`. -/
def dictGet? : Entries → String → Option Node
  | .nil, _ => none
  | .cons k' v rest, k => if k' = k then some v else dictGet? rest k

/-- Python dict assignment `d[k] = v`: update in place, or append a new
entry at the end. -/
def dictSet : Entries → String → Node → Entries
  | .nil, k, v => .cons k v .nil
  | .cons k' v' rest, k, v =>
    if k' = k then .cons k v rest else .cons k' v' (dictSet rest k v)

/-- Python `del d[k]` (no-op when the key is absent; the program guards
deletions with a membership test). -/
def dictDel : Entries → String → Entries
  | .nil, _ => .nil
  | .cons k' v' rest, k => if k' = k then rest else .cons k' v' (dictDel rest k)

/-- Python `k in d` on a dict. -/
def hasKey (d : Entries) (k : String) : Bool :=
  (dictGet? d k).isSome

/-- Python `list(d.keys())`. -/
def keysOf : Entries → List String
  | .nil => []
  | .cons k _ rest => k :: keysOf rest

/-- Python truthiness of a tree value (`bool(x)`). -/
def truthy : Node → Bool
  | .vStr s => !(s = "")
  | .vList ws => !ws.isEmpty
  | .vDict .nil => false
  | .vDict (.cons _ _ _) => true

/-! ### The ruamel YAML object model (the slice the program reads) -/

mutual
/-- A parsed ruamel YAML value: a scalar, a sequence, or a mapping.  A
mapping carries its `ca.items` side table, modelled as an association list
from key to the value of the index-2 comment token (the end-of-line comment
attached to that key), which is the only slot `process_ruamel_node` reads. -/
inductive Yaml where
  | scalar (s : String)
  | seq (items : YList)
  | ymap (entries : YEntries) (ca : List (String × String))

inductive YList where
  | nil
  | cons (v : Yaml) (rest : YList)

inductive YEntries where
  | nil
  | cons (key : String) (v : Yaml) (rest : YEntries)
end

/-- A single-quote character, used when rendering Python `repr` output. -/
def pySquote : String := ⟨[Char.ofNat 39]⟩

mutual
/-- Python `repr` of a loaded YAML value (only ever applied to non-scalar
sequence elements, which never occur in documents the program writes). -/
def pyRepr : Yaml → String
  | .scalar s => pySquote ++ s ++ pySquote
  | .seq items => "[" ++ pyReprList items ++ "]"
  | .ymap es _ => "\x7b" ++ pyReprEntries es ++ "\x7d"

def pyReprList : YList → String
  | .nil => ""
  | .cons v .nil => pyRepr v
  | .cons v (.cons w rest) => pyRepr v ++ ", " ++ pyReprList (.cons w rest)

def pyReprEntries : YEntries → String
  | .nil => ""
  | .cons k v .nil => pySquote ++ k ++ pySquote ++ ": " ++ pyRepr v
  | .cons k v (.cons k' w rest) =>
    pySquote ++ k ++ pySquote ++ ": " ++ pyRepr v ++ ", " ++ pyReprEntries (.cons k' w rest)
end

/-- Python `str(v)` of a loaded YAML value: a scalar is its text, anything
else renders as its `repr`. -/
def pyStr : Yaml → String
  | .scalar s => s
  | .seq items => "[" ++ pyReprList items ++ "]"
  | .ymap es _ => "\x7b" ++ pyReprEntries es ++ "\x7d"

/-- The stringified elements of a YAML sequence (`[str(v) for v in node]`). -/
def strItems : YList → List String
  | .nil => []
  | .cons v rest => pyStr v :: strItems rest

/-- Extraction applied to one comment token (`utils.py` lines 34-40): strip
the token text, remove a leading `# instruction:` (or a bare `#`) and strip
again; anything else yields the empty string. -/
def parseCommentToken (tokenVal : String) : String :=
  let comment_val := pyStrip tokenVal
  if pyStartsWith comment_val "# instruction:" then
    pyStrip (pyReplaceFirst comment_val "# instruction:")
  else if pyStartsWith comment_val "#" then
    pyStrip (pyReplaceFirst comment_val "#")
  else ""

/-- The comment `process_ruamel_node` extracts for key `k` of a mapping
(`utils.py` lines 29-40): the parsed index-2 token of `ca.items[k]`, or the
empty string when no token is attached. -/
def extractComment (ca : List (String × String)) (k : String) : String :=
  match ca.find? (fun kv => kv.1 = k) with
  | some kv => parseCommentToken kv.2
  | none => ""

/-- `child_processed['instruction'] = comment` (`utils.py` line 44).  Every
value `process_ruamel_node` returns is a dict, so the guard
`isinstance(child_processed, dict)` always holds. -/
def setInstruction (n : Node) (comment : String) : Node :=
  match n with
  | .vDict d => .vDict (dictSet d "instruction" (.vStr comment))
  | n => n

mutual
/-- `process_ruamel_node` (`utils.py` lines 14-50): a sequence becomes a
leaf dict with sorted stringified elements, a mapping is processed child by
child with each child receiving the comment attached to its key, and a bare
scalar becomes a one-element leaf. -/
def process_ruamel_node : Yaml → Node
  | .seq items =>
    .vDict (.cons "instruction" (.vStr "")
      (.cons "wildcards" (.vList (sortStrings (strItems items))) .nil))
  | .ymap entries ca => .vDict (processEntries ca entries)
  | .scalar s =>
    .vDict (.cons "instruction" (.vStr "")
      (.cons "wildcards" (.vList [pyStr (.scalar s)]) .nil))

/-- The `for k, v in node.items()` loop of `process_ruamel_node`; ruamel
mapping keys are unique, so building the result dict in iteration order is
exactly the Python `processed[k] = child_processed` assignment. -/
def processEntries (ca : List (String × String)) : YEntries → Entries
  | .nil => .nil
  | .cons k v rest =>
    .cons k (setInstruction (process_ruamel_node v) (extractComment ca k))
      (processEntries ca rest)
end

/-- The `wildcards` list of a dict
(`node['wildcards']`, a list whenever the program stores it). -/
def wildcardsValue (d : Entries) : List String :=
  match dictGet? d "wildcards" with
  | some (.vList ws) => ws
  | _ => []

/-- The trailing comment `reconstruct_yaml_structure` attaches for one
child (`utils.py` lines 137-138): when the child is a dict whose
`instruction` entry is truthy, an end-of-line comment token
`# instruction: <text>` is attached (ruamel `yaml_add_eol_comment` prefixes
`# ` to the given text). -/
def eolTokenOf : Node → Option String
  | .vDict d =>
    match dictGet? d "instruction" with
    | some iv =>
      if truthy iv then
        some ("# instruction: " ++ (match iv with
          | .vStr s => s
          | .vList ws => "[" ++ pyJoin ", " (ws.map (fun w => pySquote ++ w ++ pySquote)) ++ "]"
          | .vDict _ => "\x7b...\x7d"))
      else none
    | none => none
  | _ => none

/-- The `ca` side table produced while reconstructing a dict node:
one token per non-`instruction` child with a truthy `instruction`. -/
def eolComments : Entries → List (String × String)
  | .nil => []
  | .cons k v rest =>
    if k = "instruction" then eolComments rest
    else
      match eolTokenOf v with
      | some tok => (k, tok) :: eolComments rest
      | none => eolComments rest

mutual
/-- `reconstruct_yaml_structure` (`utils.py` lines 121-139): a dict with a
`wildcards` key is written as a sequence of its wildcards; any other dict is
written as a mapping of its reconstructed non-`instruction` children, with
an end-of-line `instruction:` comment for each child carrying a truthy
instruction.  The function is only ever applied to dict nodes; the string
and list cases are unreachable totalisation. -/
def reconstruct_yaml_structure : Node → Yaml
  | .vStr s => .scalar s
  | .vList ws => .seq (ofStrings ws)
  | .vDict entries =>
    if hasKey entries "wildcards" then
      .seq (ofStrings (wildcardsValue entries))
    else
      .ymap (reconstructEntries entries) (eolComments entries)

/-- The `for k, v in node.items()` loop of `reconstruct_yaml_structure`,
skipping the reserved `instruction` entry. -/
def reconstructEntries : Entries → YEntries
  | .nil => .nil
  | .cons k v rest =>
    if k = "instruction" then reconstructEntries rest
    else .cons k (reconstruct_yaml_structure v) (reconstructEntries rest)

/-- A YAML sequence of string scalars (`yaml.seq` applied to a list of
strings). -/
def ofStrings : List String → YList
  | [] => .nil
  | s :: rest => .cons (.scalar s) (ofStrings rest)
end

/-! ### Path enumeration and resolution (`utils.py` lines 82-119) -/

/-- The `for key, value in wildcard_data.items()` loop of `get_all_paths`
(`utils.py` lines 84-90), with the recursive call
`get_all_paths(value, current_path)` inlined as
`sortStrings (pathsLoop value current_path)` (its definition): skip the
reserved `instruction` entry; a child dict whose `wildcards` entry is a list
contributes its own path, any other non-empty child dict is recursed into.
A child that is not a dict contributes nothing (Python would raise on such a
child only when the string `"wildcards"` occurs inside it; no well-formed
state contains one). -/
def pathsLoop : Entries → String → List String
  | .nil, _ => []
  | .cons key v rest, parent_path =>
    (if key = "instruction" then []
     else
       let current_path := if parent_path = "" then key else parent_path ++ "/" ++ key
       match v with
       | .vDict d =>
         match dictGet? d "wildcards" with
         | some (.vList _) => [current_path]
         | _ => if (keysOf d).isEmpty then [] else sortStrings (pathsLoop d current_path)
       | _ => [])
    ++ pathsLoop rest parent_path

/-- `get_all_paths` (`utils.py` lines 82-91): collect paths with the loop
above and sort them before returning. -/
def get_all_paths (wildcard_data : Entries) (parent_path : String) : List String :=
  sortStrings (pathsLoop wildcard_data parent_path)

/-- The program state threaded through every handler.  Only the `wildcards`
tree is relevant to the verified properties; the remaining fields of the
Python state dict (config, api keys, model names, active provider) are
passed to the API layer as explicit arguments. -/
structure AppState where
  wildcards : Entries

/-- One step `data = data.get(part, {})` of `get_data_by_path`: a dict
yields the entry or the empty-dict default, while `.get` on a string or a
list raises `AttributeError`. -/
def pyGetStep (data : Node) (part : String) : Except String Node :=
  match data with
  | .vDict d =>
    match dictGet? d part with
    | some v => .ok v
    | none => .ok (.vDict .nil)
  | _ => .error "AttributeError"

/-- The `for part in parts` loop of `get_data_by_path`. -/
def pyGetChain (data : Node) : List String → Except String Node
  | [] => .ok data
  | part :: rest =>
    match pyGetStep data part with
    | .ok next => pyGetChain next rest
    | .error e => .error e

/-- `get_data_by_path` (`utils.py` lines 93-99): `None` for the empty path,
otherwise descend through `data.get(part, {})` for every `/`-separated
segment.  The result is `.error` exactly when the Python code raises. -/
def get_data_by_path (path : String) (state : AppState) : Except String (Option Node) :=
  if path = "" then .ok none
  else
    match pyGetChain (.vDict state.wildcards) (pySplit '/' path) with
    | .ok v => .ok (some v)
    | .error e => .error e

/-- Strict resolution of a segment list: `some v` exactly when every segment
hits an entry of a dict (so the node Python reaches is an alias into the
tree), `none` as soon as a segment misses or a non-dict is entered.  The
empty segment list resolves to the dict itself. -/
def resolveStrict (entries : Entries) : List String → Option Node
  | [] => some (.vDict entries)
  | part :: rest =>
    match dictGet? entries part with
    | some v =>
      match rest with
      | [] => some v
      | _ :: _ =>
        match v with
        | .vDict d => resolveStrict d rest
        | _ => none
    | none => none

/-- Apply `f` to the node reached by the segment list, rebuilding the
spine: this is the functional reading of Python mutating the aliased dict
returned by `get_data_by_path`.  When resolution misses, the tree is
unchanged (Python would have mutated a detached `{}` default). -/
def updateNodeByPath (entries : Entries) (f : Node → Node) : List String → Entries
  | [] => entries
  | part :: rest =>
    match dictGet? entries part with
    | some v =>
      match rest with
      | [] => dictSet entries part (f v)
      | _ :: _ =>
        match v with
        | .vDict d => dictSet entries part (.vDict (updateNodeByPath d f rest))
        | _ => entries
    | none => entries

/-! ### The mutating handlers (`app.py`) -/

/-- A fresh category node (`app.py` line 37). -/
def newCategoryNode : Node :=
  .vDict (.cons "instruction" (.vStr "") (.cons "wildcards" (.vList []) .nil))

/-- The `for part in parts` loop of `create_category_confirm` (`app.py`
lines 34-38): insert a fresh leaf for a missing segment, then descend into
`current[part]`.  Descending into a non-dict raises `TypeError` in Python
(string/list item assignment or lookup with a string key). -/
def createDescend (entries : Entries) : List String → Except String Entries
  | [] => .ok entries
  | part :: rest =>
    let entries' := if hasKey entries part then entries
                    else dictSet entries part newCategoryNode
    match dictGet? entries' part with
    | some (.vDict d) =>
      match createDescend d rest with
      | .ok d' => .ok (dictSet entries' part (.vDict d'))
      | .error e => .error e
    | some _ => if rest.isEmpty then .ok entries' else .error "TypeError"
    | none => .ok entries'

/-- `create_category_confirm` (`app.py` lines 31-41), restricted to its
state effect (the dropdown updates it also returns are UI glue). -/
def create_category_confirm (name : String) (state : AppState) :
    Except String AppState :=
  if pyStrip name = "" then .ok state
  else
    match createDescend state.wildcards (pySplit '/' (pyStrip name)) with
    | .ok entries => .ok ⟨entries⟩
    | .error e => .error e

/-- Substring test on char lists (Python `in` on strings). -/
def containsSub (pat : List Char) : List Char → Bool
  | [] => isPrefixChars pat []
  | c :: cs => isPrefixChars pat (c :: cs) || containsSub pat cs

/-- Python `key in parent` when `parent` is not a dict, followed by
`del parent[key]`: membership is a substring test on a string and element
membership on a list; when it succeeds the deletion raises `TypeError`,
when it fails the state is returned unchanged.  Unreachable for well-formed
states. -/
def delFromNonDict (v : Node) (key : String) (state : AppState) :
    Except String AppState :=
  match v with
  | .vStr s => if containsSub key.data s.data then .error "TypeError" else .ok state
  | .vList ws => if ws.contains key then .error "TypeError" else .ok state
  | .vDict _ => .ok state

/-- `delete_category_handler` (`app.py` lines 43-59), restricted to its
state effect.  A one-segment path deletes a root entry when present; a
longer path resolves the parent with `get_data_by_path` and deletes the
final key from it when the parent is truthy and contains the key. -/
def delete_category_handler (path : String) (state : AppState) :
    Except String AppState :=
  if path = "" then .ok state
  else
    let parts := pySplit '/' path
    if parts.length = 1 then
      .ok ⟨dictDel state.wildcards path⟩
    else
      let parent_path := pyJoin "/" parts.dropLast
      let key := parts.getLastD ""
      match get_data_by_path parent_path state with
      | .error e => .error e
      | .ok none => .ok state
      | .ok (some parent_node) =>
        match parent_node with
        | .vDict d =>
          if truthy parent_node && hasKey d key then
            .ok ⟨updateNodeByPath state.wildcards (fun n =>
              match n with
              | .vDict pd => .vDict (dictDel pd key)
              | n => n) (pySplit '/' parent_path)⟩
          else .ok state
        | v => if truthy v then delFromNonDict v key state else .ok state

/-- `add_wildcard_handler` (`app.py` lines 61-68), restricted to its state
effect: resolve the path, append the stripped wildcard to the node's
`wildcards` list and store `sorted(list(set(...)))` back.  `sorted(set(l))`
is the sorted duplicate-free list of the elements of `l`, modelled as
`sortStrings l.dedup`. -/
def add_wildcard_handler (path new_wildcard : String) (state : AppState) :
    Except String AppState :=
  if path = "" || pyStrip new_wildcard = "" then .ok state
  else
    match get_data_by_path path state with
    | .error e => .error e
    | .ok none => .ok state
    | .ok (some data_node) =>
      if !truthy data_node then .ok state
      else
        match data_node with
        | .vDict d =>
          match dictGet? d "wildcards" with
          | some (.vList ws) =>
            .ok ⟨updateNodeByPath state.wildcards (fun n =>
              match n with
              | .vDict nd => .vDict (dictSet nd "wildcards"
                  (.vList (sortStrings (ws ++ [pyStrip new_wildcard]).dedup)))
              | n => n) (pySplit '/' path)⟩
          | some _ => .error "AttributeError"
          | none =>
            .ok ⟨updateNodeByPath state.wildcards (fun n =>
              match n with
              | .vDict nd => .vDict (dictSet nd "wildcards"
                  (.vList (sortStrings ([pyStrip new_wildcard]).dedup)))
              | n => n) (pySplit '/' path)⟩
        | _ => .error "AttributeError"

/-- `get_parent_structure_by_path` (`utils.py` lines 107-119): top-level
keys for an empty or one-segment path; otherwise the raw key list of the
parent dict when that parent is truthy (calling `.keys()` on a truthy
non-dict raises `AttributeError`), and `[]` when the parent is falsy. -/
def get_parent_structure_by_path (path : String) (state : AppState) :
    Except String (List String) :=
  if path = "" then .ok (keysOf state.wildcards)
  else
    let parts := pySplit '/' path
    if parts.length = 1 then .ok (keysOf state.wildcards)
    else
      let parent_path := pyJoin "/" parts.dropLast
      match get_data_by_path parent_path state with
      | .error e => .error e
      | .ok none => .ok []
      | .ok (some parent_data) =>
        if truthy parent_data then
          match parent_data with
          | .vDict d => .ok (keysOf d)
          | _ => .error "AttributeError"
        else .ok []

/-! ### The API adapter (`api.py`) -/

/-- A JSON value (the payloads and responses handled by `api.py`). -/
inductive Json where
  | jnull
  | jbool (b : Bool)
  | jnum (n : Int)
  | jstr (s : String)
  | jarr (xs : List Json)
  | jobj (fields : List (String × Json))

/-- JSON object field lookup (Python `dict.get` / `d[k]` on a decoded
object). -/
def jLookup (fields : List (String × Json)) (k : String) : Option Json :=
  match fields.find? (fun kv => kv.1 = k) with
  | some kv => some kv.2
  | none => none

/-- Modelled from the Python standard library `json.loads` (not repository
code): a recursive-descent parser for the JSON subset the program exchanges
(null, booleans, integer numbers, strings with the common escapes, arrays,
objects).  Fuel-indexed so that it is structurally recursive; `none` models
`json.JSONDecodeError`. -/
def skipWsChars (l : List Char) : List Char :=
  l.dropWhile pyIsSpace

def parseHexDigit (c : Char) : Option Nat :=
  if '0' ≤ c ∧ c ≤ '9' then some (c.toNat - '0'.toNat)
  else if 'a' ≤ c ∧ c ≤ 'f' then some (c.toNat - 'a'.toNat + 10)
  else if 'A' ≤ c ∧ c ≤ 'F' then some (c.toNat - 'A'.toNat + 10)
  else none

def parseStringBody (fuel : Nat) (l : List Char) (acc : List Char) :
    Option (String × List Char) :=
  match fuel with
  | 0 => none
  | fuel + 1 =>
    match l with
    | [] => none
    | '"' :: rest => some (⟨acc.reverse⟩, rest)
    | '\\' :: e :: rest =>
      match e with
      | '"' => parseStringBody fuel rest ('"' :: acc)
      | '\\' => parseStringBody fuel rest ('\\' :: acc)
      | '/' => parseStringBody fuel rest ('/' :: acc)
      | 'n' => parseStringBody fuel rest ('\n' :: acc)
      | 't' => parseStringBody fuel rest ('\t' :: acc)
      | 'r' => parseStringBody fuel rest ('\r' :: acc)
      | 'b' => parseStringBody fuel rest (Char.ofNat 8 :: acc)
      | 'f' => parseStringBody fuel rest (Char.ofNat 12 :: acc)
      | 'u' =>
        match rest with
        | h1 :: h2 :: h3 :: h4 :: rest' =>
          match parseHexDigit h1, parseHexDigit h2, parseHexDigit h3, parseHexDigit h4 with
          | some a, some b, some c, some d =>
            parseStringBody fuel rest' (Char.ofNat (((a * 16 + b) * 16 + c) * 16 + d) :: acc)
          | _, _, _, _ => none
        | _ => none
      | _ => none
    | c :: rest => parseStringBody fuel rest (c :: acc)

def parseDigits (l : List Char) (acc : Nat) (seen : Bool) :
    Option (Nat × List Char) :=
  match l with
  | c :: rest =>
    if '0' ≤ c ∧ c ≤ '9' then parseDigits rest (acc * 10 + (c.toNat - '0'.toNat)) true
    else if seen then some (acc, l) else none
  | [] => if seen then some (acc, []) else none

mutual
def parseValue (fuel : Nat) (l : List Char) : Option (Json × List Char) :=
  match fuel with
  | 0 => none
  | fuel + 1 =>
    match skipWsChars l with
    | 'n' :: 'u' :: 'l' :: 'l' :: rest => some (.jnull, rest)
    | 't' :: 'r' :: 'u' :: 'e' :: rest => some (.jbool true, rest)
    | 'f' :: 'a' :: 'l' :: 's' :: 'e' :: rest => some (.jbool false, rest)
    | '"' :: rest =>
      match parseStringBody (rest.length + 1) rest [] with
      | some (s, rest') => some (.jstr s, rest')
      | none => none
    | '[' :: rest =>
      match skipWsChars rest with
      | ']' :: rest' => some (.jarr [], rest')
      | _ => match parseElems fuel rest with
             | some (xs, rest') => some (.jarr xs, rest')
             | none => none
    | '\x7b' :: rest =>
      match skipWsChars rest with
      | '\x7d' :: rest' => some (.jobj [], rest')
      | _ => match parseMembers fuel rest with
             | some (fs, rest') => some (.jobj fs, rest')
             | none => none
    | '-' :: rest =>
      match parseDigits rest 0 false with
      | some (n, rest') => some (.jnum (-(n : Int)), rest')
      | none => none
    | c :: rest =>
      if '0' ≤ c ∧ c ≤ '9' then
        match parseDigits (c :: rest) 0 false with
        | some (n, rest') => some (.jnum (n : Int), rest')
        | none => none
      else none
    | [] => none

def parseElems (fuel : Nat) (l : List Char) : Option (List Json × List Char) :=
  match fuel with
  | 0 => none
  | fuel + 1 =>
    match parseValue fuel l with
    | some (v, rest) =>
      match skipWsChars rest with
      | ',' :: rest' =>
        match parseElems fuel rest' with
        | some (xs, rest'') => some (v :: xs, rest'')
        | none => none
      | ']' :: rest' => some ([v], rest')
      | _ => none
    | none => none

def parseMembers (fuel : Nat) (l : List Char) : Option (List (String × Json) × List Char) :=
  match fuel with
  | 0 => none
  | fuel + 1 =>
    match skipWsChars l with
    | '"' :: rest =>
      match parseStringBody (rest.length + 1) rest [] with
      | some (k, rest') =>
        match skipWsChars rest' with
        | ':' :: rest'' =>
          match parseValue fuel rest'' with
          | some (v, rest3) =>
            match skipWsChars rest3 with
            | ',' :: rest4 =>
              match parseMembers fuel rest4 with
              | some (fs, rest5) => some ((k, v) :: fs, rest5)
              | none => none
            | '\x7d' :: rest4 => some ([(k, v)], rest4)
            | _ => none
          | none => none
        | _ => none
      | none => none
    | _ => none
end

/-- Modelled from the Python standard library `json.loads`: parse a whole
document, requiring only trailing whitespace after the value. -/
def json_loads (s : String) : Option Json :=
  match parseValue (s.data.length + 1) s.data with
  | some (v, rest) => if (skipWsChars rest).isEmpty then some v else none
  | none => none

/-- Split a char list on the three-backtick fence, fuel-indexed so that it
is structurally recursive (each step consumes the fence or one character). -/
def splitFenceAux (fuel : Nat) (l : List Char) (acc : List Char) :
    List (List Char) :=
  match fuel with
  | 0 => [acc.reverse ++ l]
  | fuel + 1 =>
    match l with
    | [] => [acc.reverse]
    | c :: cs =>
      if isPrefixChars "```".data (c :: cs) then
        acc.reverse :: splitFenceAux fuel ((c :: cs).drop 3) []
      else splitFenceAux fuel cs (c :: acc)

/-- The pieces of a string between backtick fences. -/
def splitFence (l : List Char) : List (List Char) :=
  splitFenceAux (l.length + 1) l []

/-- The markdown code-fence stripping of `api.py` lines 94-98: when the
content contains an opening and a closing fence, `re.search` with the
pattern used there yields the text between the first two fences, minus an
optional literal `json` tag, with surrounding whitespace stripped;
otherwise the content is unchanged (no match, or no fence at all). -/
def stripCodeFence (content_str : String) : String :=
  match splitFence content_str.data with
  | _ :: p1 :: _ :: _ =>
    let inner := if isPrefixChars "json".data p1 then p1.drop 4 else p1
    ⟨trimLeftChars (trimRightChars inner)⟩
  | _ => content_str

/-- A prepared HTTP request: URL, headers, JSON payload (`api.py` returns
the triple `url, headers, payload`). -/
structure PreparedRequest where
  url : String
  headers : List (String × String)
  payload : Json

/-- Python `dict.get(k)` on a string-valued settings dict: `none` models the
`None` default. -/
def sGet (m : List (String × String)) (k : String) : Option String :=
  match m.find? (fun kv => kv.1 = k) with
  | some kv => some kv.2
  | none => none

/-- Python `dict.get(k, default)` on a string-valued settings dict. -/
def sGetD (m : List (String × String)) (k dflt : String) : String :=
  match sGet m k with
  | some v => v
  | none => dflt

/-- Python falsiness of an optional string (`not api_key` is true for both
a missing key and the empty string). -/
def optStrFalsy : Option String → Bool
  | none => true
  | some s => s = ""

/-- `Api._prepare_request` (`api.py` lines 6-65): build the provider
specific URL, headers and JSON payload, raising `ValueError` when the
Gemini or OpenRouter key is missing/empty, when the custom base URL is
missing/empty, or when the provider is unknown. -/
def prepare_request (provider : String) (api_keys models : List (String × String))
    (global_prompt user_prompt : String) : Except String PreparedRequest :=
  if provider = "gemini" then
    let api_key := sGet api_keys "gemini"
    let model := sGetD models "gemini" "gemini-1.5-flash"
    if optStrFalsy api_key then
      .error "Gemini API key not provided in settings."
    else
      .ok ⟨"https://generativelanguage.googleapis.com/v1beta/models/" ++ model
            ++ ":generateContent?key=" ++ (match api_key with | some k => k | none => ""),
          [("Content-Type", "application/json")],
          .jobj [("contents", .jarr
              [ .jobj [("role", .jstr "user"), ("parts", .jarr [.jobj [("text", .jstr global_prompt)]])],
                .jobj [("role", .jstr "model"), ("parts", .jarr [.jobj [("text", .jstr "Understood.")]])],
                .jobj [("role", .jstr "user"), ("parts", .jarr [.jobj [("text", .jstr user_prompt)]])] ]),
            ("generationConfig", .jobj
              [("responseMimeType", .jstr "application/json"),
               ("responseSchema", .jobj [("type", .jstr "ARRAY"),
                 ("items", .jobj [("type", .jstr "STRING")])])])]⟩
  else if provider = "openrouter" then
    let api_key := sGet api_keys "openrouter"
    let model := sGetD models "openrouter" "openai/gpt-3.5-turbo"
    if optStrFalsy api_key then
      .error "OpenRouter API key not provided in settings."
    else
      .ok ⟨"https://openrouter.ai/api/v1/chat/completions",
          [("Content-Type", "application/json"),
           ("Authorization", "Bearer " ++ (match api_key with | some k => k | none => ""))],
          .jobj [("model", .jstr model),
            ("messages", .jarr [.jobj [("role", .jstr "user"),
              ("content", .jstr (global_prompt ++ "\n\n" ++ user_prompt))]]),
            ("response_format", .jobj [("type", .jstr "json_object")])]⟩
  else if provider = "custom" then
    let api_key := sGet api_keys "custom"
    let model := sGetD models "custom" ""
    let base_url := sGetD models "custom_url" ""
    if base_url = "" then
      .error "Custom API URL not provided in settings."
    else
      .ok ⟨⟨(trimRightChars base_url.data).reverse.dropWhile (fun c => c = '/')
              |>.reverse⟩ ++ "/chat/completions",
          (if optStrFalsy api_key then
             [("Content-Type", "application/json")]
           else
             [("Content-Type", "application/json"),
              ("Authorization", "Bearer " ++ (match api_key with | some k => k | none => ""))]),
          .jobj [("model", .jstr model),
            ("messages", .jarr [.jobj [("role", .jstr "user"),
              ("content", .jstr (global_prompt ++ "\n\n" ++ user_prompt))]]),
            ("response_format", .jobj [("type", .jstr "json_object")])]⟩
  else
    .error ("Provider " ++ pySquote ++ provider ++ pySquote ++ " is not implemented yet.")

/-- The prefix of `Api.generate_wildcards` (`api.py` lines 67-74) up to the
construction of the `urllib.request.Request`: format the readable path and
the user prompt, then prepare the request.  An `.error` result means a
configuration `ValueError` was raised before any request object existed. -/
def generate_wildcards_request (provider : String)
    (api_keys models : List (String × String)) (global_prompt category_path : String)
    (existing_words : List String) (custom_instructions : String) :
    Except String PreparedRequest :=
  let readable_path := pyReplaceChar (pyReplaceChar category_path '/' " > ") '_' " "
  let user_prompt := "Category Path: " ++ pySquote ++ readable_path ++ pySquote
      ++ "\nExisting Wildcards: " ++ pyJoin ", " (existing_words.take 50)
      ++ "\nCustom Instructions: \"" ++ pyStrip custom_instructions ++ "\""
  prepare_request provider api_keys models global_prompt user_prompt

/-- The `for val in content.values()` fallback (`api.py` lines 109-111):
the first list-valued field of the object, or the empty list. -/
def firstListField (fields : List (String × Json)) : List Json :=
  match fields.findSome? (fun kv =>
    match kv.2 with
    | .jarr xs => some xs
    | _ => none) with
  | some xs => xs
  | none => []

/-- The object-unwrapping of `Api.generate_wildcards` (`api.py` lines
101-112): a JSON array is returned as is; a JSON object is searched for the
wrapper keys `wildcards`, `items`, `categories` in that order (taking the
first whose value is a list), then for its first list-valued field; anything
else yields the empty list. -/
def extract_wildcards_content (content : Json) : List Json :=
  match content with
  | .jarr xs => xs
  | .jobj fields =>
    (match jLookup fields "wildcards" with
     | some (.jarr xs) => xs
     | _ =>
       match jLookup fields "items" with
       | some (.jarr xs) => xs
       | _ =>
         match jLookup fields "categories" with
         | some (.jarr xs) => xs
         | _ => firstListField fields)
  | _ => []

/-- The openrouter/custom response branch of `Api.generate_wildcards`
(`api.py` lines 90-114): require a truthy `choices`, read
`choices[0].message.content` (a string, or the fence test raises
`TypeError`), strip a markdown code fence, `json.loads` the remainder and
unwrap it.  `.error` models the exceptions raised on malformed shapes. -/
def parse_openrouter_generation (response_json : Json) : Except String (List Json) :=
  match response_json with
  | .jobj fields =>
    match jLookup fields "choices" with
    | some (.jarr (c0 :: _)) =>
      match c0 with
      | .jobj cf =>
        match jLookup cf "message" with
        | some (.jobj mf) =>
          match jLookup mf "content" with
          | some (.jstr content_str) =>
            match json_loads (stripCodeFence content_str) with
            | some content => .ok (extract_wildcards_content content)
            | none => .error "json.JSONDecodeError"
          | some _ => .error "TypeError"
          | none => .error "KeyError"
        | some _ => .error "TypeError"
        | none => .error "KeyError"
      | _ => .error "TypeError"
    | _ => .error "Invalid response from openrouter API."
  | _ => .error "AttributeError"

/-! ### Data-model predicates and observations (from the specification) -/

/-- Strictly increasing list of strings: sorted with no duplicates (the
shape the data model requires of a wildcard list). -/
def strictSorted : List String → Bool
  | [] => true
  | [_] => true
  | a :: b :: rest => (pyLe a b && !(a = b)) && strictSorted (b :: rest)

/-- The exact shape of a leaf record: an `instruction` string followed by a
sorted duplicate-free `wildcards` list.  The program always builds leaves
with the fields in this order. -/
def isLeafShape : Entries → Bool
  | .cons "instruction" (.vStr _) (.cons "wildcards" (.vList ws) .nil) =>
    strictSorted ws
  | _ => false

mutual
/-- Data-model shape of a node: a leaf record, or a branch dict whose
non-`instruction` entries are well-formed child nodes under keys distinct
from the reserved `instruction`/`wildcards` names, with pairwise distinct
keys. -/
def wfNode : Node → Bool
  | .vStr _ => false
  | .vList _ => false
  | .vDict d => isLeafShape d || (keysNodupB d && wfBranchEntries d)

/-- The branch side of `wfNode`, entry by entry. -/
def wfBranchEntries : Entries → Bool
  | .nil => true
  | .cons k v rest =>
    (if k = "instruction" then
       match v with
       | .vStr _ => true
       | _ => false
     else !(k = "wildcards") && wfNode v) && wfBranchEntries rest

/-- Pairwise distinct keys. -/
def keysNodupB : Entries → Bool
  | .nil => true
  | .cons k _ rest => !hasKey rest k && keysNodupB rest
end

/-- Data-model shape of a whole tree (the root mapping `state['wildcards']`):
a branch dict; the root may or may not carry an `instruction` entry. -/
def wfRoot (entries : Entries) : Bool :=
  keysNodupB entries && wfBranchEntries entries

mutual
/-- Every `instruction` string in the tree is free of leading and trailing
whitespace (`pyStrip` leaves it unchanged). -/
def trimNode : Node → Bool
  | .vStr _ => true
  | .vList _ => true
  | .vDict d => trimEntries d

def trimEntries : Entries → Bool
  | .nil => true
  | .cons k v rest =>
    (if k = "instruction" then
       match v with
       | .vStr s => pyStrip s = s
       | _ => true
     else trimNode v) && trimEntries rest
end

/-- Whether a dict has a key other than the reserved
`instruction`/`wildcards` names. -/
def hasChildKey : Entries → Bool
  | .nil => false
  | .cons k _ rest => (!(k = "instruction") && !(k = "wildcards")) || hasChildKey rest

/-- Append one entry at the end of a dict. -/
def appendEntry : Entries → String → Node → Entries
  | .nil, k, v => .cons k v .nil
  | .cons k' v' rest, k, v => .cons k' v' (appendEntry rest k v)

mutual
/-- The leaf-XOR-branch invariant of the data model: no reachable dict has
both a `wildcards` entry and a child-category entry (a key other than the
reserved `instruction`/`wildcards`). -/
def exclusiveNode : Node → Bool
  | .vStr _ => true
  | .vList _ => true
  | .vDict d =>
    !(hasKey d "wildcards" && hasChildKey d) && exclusiveEntries d

def exclusiveEntries : Entries → Bool
  | .nil => true
  | .cons _ v rest => exclusiveNode v && exclusiveEntries rest
end

/-- The `instruction` string stored in a dict (empty when absent or not a
string). -/
def instrOf (d : Entries) : String :=
  match dictGet? d "instruction" with
  | some (.vStr s) => s
  | _ => ""

mutual
/-- The observable content of a tree: for every leaf, its full `/`-joined
path together with its `instruction` string and `wildcards` list, in
traversal order.  A dict with a `wildcards` key is observed as a leaf; any
other dict is recursed into; the reserved `instruction` entries are skipped.
This is the comparison the round-trip property quantifies over. -/
def leafObs : Entries → String → List (String × String × List String)
  | .nil, _ => []
  | .cons k v rest, p =>
    (if k = "instruction" then []
     else
       let cur := if p = "" then k else p ++ "/" ++ k
       leafObsNode v cur) ++ leafObs rest p

def leafObsNode : Node → String → List (String × String × List String)
  | .vDict d, cur =>
    if hasKey d "wildcards" then [(cur, instrOf d, wildcardsValue d)]
    else leafObs d cur
  | _, _ => []
end

/-- The comment the decoder recovers for a child that the encoder wrote:
parse of the end-of-line token when one is attached, empty otherwise. -/
def rtComment (v : Node) : String :=
  match eolTokenOf v with
  | some tok => parseCommentToken tok
  | none => ""

mutual
/-- Closed form of `setInstruction (process_ruamel_node
(reconstruct_yaml_structure n)) c` on well-formed trees: a leaf keeps its
wildcards (re-sorted) under the instruction `c`; a branch maps its
non-`instruction` children through the same transformation (each child
receiving the comment recovered from its own instruction) and carries its
instruction entry at the end, where the decoder appends it. -/
def canonRT (c : String) : Node → Node
  | .vDict d =>
    if hasKey d "wildcards" then
      .vDict (.cons "instruction" (.vStr c)
        (.cons "wildcards" (.vList (sortStrings (wildcardsValue d))) .nil))
    else
      .vDict (appendEntry (canonRTEntries d) "instruction" (.vStr c))
  | n => n

def canonRTEntries : Entries → Entries
  | .nil => .nil
  | .cons k v rest =>
    if k = "instruction" then canonRTEntries rest
    else .cons k (canonRT (rtComment v) v) (canonRTEntries rest)
end

/-- Modelled from the spec (§4.1 `listPaths`): the depth-first enumeration
of every full path reaching a leaf; the reserved `instruction` entries are
skipped, a leaf is a dict whose `wildcards` entry is a list, and empty
branches contribute nothing.  `get_all_paths` must equal this enumeration
sorted lexicographically. -/
def leafPathsSpec : Entries → String → List String
  | .nil, _ => []
  | .cons key v rest, parent =>
    (if key = "instruction" then []
     else
       let cur := if parent = "" then key else parent ++ "/" ++ key
       match v with
       | .vDict d =>
         match dictGet? d "wildcards" with
         | some (.vList _) => [cur]
         | _ => leafPathsSpec d cur
       | _ => [])
    ++ leafPathsSpec rest parent

/-- Modelled from the spec (§4.2 comment extraction): the instruction
recovered from an optionally attached comment token — the token stripped of
its `# instruction:` prefix (or of a bare `#`), whitespace-trimmed; empty
when no token is attached or the token is not a comment. -/
def specInstructionOfComment : Option String → String
  | none => ""
  | some t =>
    let c := pyStrip t
    if pyStartsWith c "# instruction:" then pyStrip ⟨c.data.drop "# instruction:".data.length⟩
    else if pyStartsWith c "#" then pyStrip ⟨c.data.drop 1⟩
    else ""

/-- Modelled from the spec (§4.3 generation fallback parsing): if the
parsed JSON is an object, search the wrapper keys `wildcards`, `items`,
`categories` in that order for a list value, fall back to the first
list-valued field, otherwise return the empty sequence; an array is the
result itself. -/
def specWrapperSearch : Json → List Json
  | .jarr xs => xs
  | .jobj fields =>
    (match (["wildcards", "items", "categories"].findSome? (fun key =>
        match jLookup fields key with
        | some (.jarr xs) => some xs
        | _ => none)) with
     | some xs => xs
     | none => firstListField fields)
  | _ => []

/-- The `Prop` form of the Python string order. -/
def pyLeP (a b : String) : Prop := pyLe a b = true

/-- Sortedness in the Python order. -/
def SortedPy (l : List String) : Prop := l.Pairwise pyLeP

/-! ### Concrete fixtures used by witnesses and counterexamples -/

/-- A leaf record. -/
def leafT (i : String) (ws : List String) : Node :=
  .vDict (.cons "instruction" (.vStr i) (.cons "wildcards" (.vList ws) .nil))

/-- The entries of a dict node (empty for non-dicts). -/
def entriesOf : Node → Entries
  | .vDict d => d
  | _ => .nil

/-- The tree `{cat1: [a], cat2: {sub1: [b], sub2: [c]}}` of the
path-enumeration example. -/
def exampleTree : Entries :=
  .cons "cat1" (leafT "" ["a"])
    (.cons "cat2" (.vDict (.cons "sub1" (leafT "" ["b"])
      (.cons "sub2" (leafT "" ["c"]) .nil))) .nil)

/-- A well-formed tree whose single leaf instruction carries trailing
whitespace. -/
def untrimmedTree : Entries :=
  .cons "cat" (leafT "x " ["a"]) .nil

/-- A well-formed tree with one trimmed instruction, one nested branch. -/
def trimmedTree : Entries :=
  .cons "cat" (leafT "style hint" ["a", "b"])
    (.cons "grp" (.vDict (.cons "sub" (leafT "" ["c"])
      (.cons "instruction" (.vStr "grp hint") .nil))) .nil)

/-- State fixture for the add-wildcard witness: one leaf `["a","c"]`. -/
def addState : AppState := ⟨.cons "cat" (leafT "" ["a", "c"]) .nil⟩

/-- State fixture for the deletion witness. -/
def delState : AppState :=
  ⟨.cons "Parent" (.vDict (.cons "Child" (leafT "" [])
      (.cons "Other" (leafT "" []) .nil)))
    (.cons "Top" (leafT "" []) .nil)⟩

/-- State fixture for the reserved-segment counterexample. -/
def reservedState : AppState := ⟨.cons "a" (leafT "" []) .nil⟩

/-- State fixture for the parent-structure witness: the parent branch
carries a reserved `instruction` entry, as decoded branches do. -/
def parentState : AppState :=
  ⟨.cons "Parent" (.vDict (.cons "Child" (leafT "" [])
      (.cons "instruction" (.vStr "hint") .nil))) .nil⟩

/-- The openrouter-shaped response whose content is a fenced JSON object. -/
def fencedResponse : Json :=
  .jobj [("choices", .jarr [.jobj [("message", .jobj [("content",
    .jstr "```json\n\x7b\"wildcards\": [\"x\", \"y\"]\x7d\n```")])]])]

/-- The YAML mapping `category: # instruction: Use specific style` with the
single item `item1`. -/
def commentedYaml : Yaml :=
  .ymap (.cons "category" (.seq (.cons (.scalar "item1") .nil)) .nil)
    [("category", "# instruction: Use specific style")]

/-! ### Order lemmas for the Python string comparison -/

theorem charListLe_total (a : List Char) : ∀ b,
    charListLe a b = true ∨ charListLe b a = true := by
  induction a with
  | nil => intro b; left; rfl
  | cons x xs ih =>
    intro b
    cases b with
    | nil => right; rfl
    | cons y ys =>
      by_cases hxy : x = y
      · subst hxy
        simpa [charListLe] using ih ys
      · have hyx : ¬ y = x := fun h => hxy h.symm
        simp only [charListLe, if_neg hxy, if_neg hyx, decide_eq_true_eq]
        rcases lt_trichotomy x y with h | h | h
        · exact Or.inl h
        · exact absurd h hxy
        · exact Or.inr h

theorem charListLe_trans (a : List Char) : ∀ b c,
    charListLe a b = true → charListLe b c = true → charListLe a c = true := by
  induction a with
  | nil => intro b c _ _; rfl
  | cons x xs ih =>
    intro b c hab hbc
    cases b with
    | nil => simp [charListLe] at hab
    | cons y ys =>
      cases c with
      | nil => simp [charListLe] at hbc
      | cons z zs =>
        by_cases hxy : x = y <;> by_cases hyz : y = z
        · subst hxy; subst hyz
          simp only [charListLe, if_pos rfl] at hab hbc ⊢
          exact ih ys zs hab hbc
        · subst hxy
          simp only [charListLe, if_pos rfl, if_neg hyz] at hab hbc ⊢
          exact hbc
        · subst hyz
          simp only [charListLe, if_pos rfl, if_neg hxy] at hab hbc ⊢
          exact hab
        · simp only [charListLe, if_neg hxy, if_neg hyz, decide_eq_true_eq] at hab hbc
          have hxz : x < z := lt_trans hab hbc
          have : ¬ x = z := ne_of_lt hxz
          simp only [charListLe, if_neg this, decide_eq_true_eq]
          exact hxz

theorem charListLe_antisymm (a : List Char) : ∀ b,
    charListLe a b = true → charListLe b a = true → a = b := by
  induction a with
  | nil =>
    intro b _ hba
    cases b with
    | nil => rfl
    | cons y ys => simp [charListLe] at hba
  | cons x xs ih =>
    intro b hab hba
    cases b with
    | nil => simp [charListLe] at hab
    | cons y ys =>
      by_cases hxy : x = y
      · subst hxy
        simp only [charListLe, if_pos rfl] at hab hba
        exact congrArg (x :: ·) (ih ys hab hba)
      · have hyx : ¬ y = x := fun h => hxy h.symm
        simp only [charListLe, if_neg hxy, if_neg hyx, decide_eq_true_eq] at hab hba
        exact absurd hba (lt_asymm hab)

theorem pyLe_total (a b : String) : pyLeP a b ∨ pyLeP b a :=
  charListLe_total a.data b.data

theorem pyLe_trans {a b c : String} : pyLeP a b → pyLeP b c → pyLeP a c :=
  charListLe_trans a.data b.data c.data

theorem pyLe_antisymm {a b : String} : pyLeP a b → pyLeP b a → a = b := by
  intro hab hba
  have h := charListLe_antisymm a.data b.data hab hba
  cases a; cases b; exact congrArg String.mk h

theorem insertSorted_perm (x : String) (l : List String) :
    (insertSorted x l).Perm (x :: l) := by
  induction l with
  | nil => exact List.Perm.refl _
  | cons y ys ih =>
    by_cases h : pyLe x y = true
    · simp [insertSorted, h]
    · have hstep : insertSorted x (y :: ys) = y :: insertSorted x ys := by
        simp [insertSorted, h]
      rw [hstep]
      exact (ih.cons y).trans (List.Perm.swap x y ys)

theorem sortStrings_perm (l : List String) : (sortStrings l).Perm l := by
  induction l with
  | nil => exact List.Perm.refl _
  | cons x xs ih =>
    exact (insertSorted_perm x (sortStrings xs)).trans (ih.cons x)

theorem insertSorted_sorted (x : String) {l : List String} (h : SortedPy l) :
    SortedPy (insertSorted x l) := by
  induction l with
  | nil => exact List.pairwise_singleton _ _
  | cons y ys ih =>
    rcases List.pairwise_cons.mp h with ⟨hy, hys⟩
    by_cases hxy : pyLe x y = true
    · simp only [insertSorted, hxy, if_pos rfl]
      refine List.pairwise_cons.mpr ⟨?_, h⟩
      intro b hb
      rcases List.mem_cons.mp hb with rfl | hb
      · exact hxy
      · exact pyLe_trans hxy (hy b hb)
    · have hyx : pyLeP y x := (pyLe_total x y).resolve_left hxy
      have hstep : insertSorted x (y :: ys) = y :: insertSorted x ys := by
        simp [insertSorted, hxy]
      rw [hstep]
      refine List.pairwise_cons.mpr ⟨?_, ih hys⟩
      intro b hb
      have hb' : b ∈ x :: ys := (insertSorted_perm x ys).mem_iff.mp hb
      rcases List.mem_cons.mp hb' with rfl | hb'
      · exact hyx
      · exact hy b hb'

theorem sortStrings_sorted (l : List String) : SortedPy (sortStrings l) := by
  induction l with
  | nil => exact List.Pairwise.nil
  | cons x xs ih => exact insertSorted_sorted x ih

theorem sortStrings_eq_self {l : List String} (h : SortedPy l) : sortStrings l = l := by
  induction l with
  | nil => rfl
  | cons x xs ih =>
    rcases List.pairwise_cons.mp h with ⟨hx, hxs⟩
    show insertSorted x (sortStrings xs) = x :: xs
    rw [ih hxs]
    cases xs with
    | nil => rfl
    | cons y ys =>
      have h1 : pyLe x y = true := hx y (List.mem_cons_self y ys)
      simp [insertSorted, h1]

theorem eq_of_perm_of_sortedPy {l₁ l₂ : List String} (hp : l₁.Perm l₂)
    (h₁ : SortedPy l₁) (h₂ : SortedPy l₂) : l₁ = l₂ :=
  @List.eq_of_perm_of_sorted String pyLeP ⟨fun _ _ => pyLe_antisymm⟩ l₁ l₂ hp h₁ h₂

theorem sortStrings_eq_of_perm {l₁ l₂ : List String} (hp : l₁.Perm l₂) :
    sortStrings l₁ = sortStrings l₂ :=
  eq_of_perm_of_sortedPy
    (((sortStrings_perm l₁).trans hp).trans (sortStrings_perm l₂).symm)
    (sortStrings_sorted l₁) (sortStrings_sorted l₂)

theorem strictSorted_of_sorted_nodup : ∀ {l : List String},
    SortedPy l → l.Nodup → strictSorted l = true := by
  intro l
  induction l with
  | nil => intro _ _; rfl
  | cons x xs ih =>
    intro hs hn
    cases xs with
    | nil => rfl
    | cons y ys =>
      rcases List.pairwise_cons.mp hs with ⟨hx, hxs⟩
      rcases List.nodup_cons.mp hn with ⟨hmem, hnd⟩
      have hxy : pyLe x y = true := hx y (List.mem_cons_self y ys)
      have hne : ¬ x = y := fun h => hmem (h ▸ List.mem_cons_self y ys)
      simp only [strictSorted, hxy, hne, Bool.and_true, Bool.true_and,
        decide_eq_true_eq, Bool.not_true, Bool.and_eq_true, Bool.not_eq_true']
      exact ⟨by simp [hne], ih hxs hnd⟩

theorem strictSorted_sortStrings_dedup (l : List String) :
    strictSorted (sortStrings l.dedup) = true := by
  refine strictSorted_of_sorted_nodup (sortStrings_sorted _) ?_
  exact (sortStrings_perm l.dedup).nodup_iff.mpr (List.nodup_dedup l)

theorem strictSorted_sorted : ∀ {l : List String},
    strictSorted l = true → SortedPy l := by
  intro l
  induction l with
  | nil => intro _; exact List.Pairwise.nil
  | cons x xs ih =>
    intro h
    cases xs with
    | nil => exact List.pairwise_singleton _ _
    | cons y ys =>
      simp only [strictSorted, Bool.and_eq_true] at h
      rcases h with ⟨⟨hxy, _⟩, hrest⟩
      have hys := ih hrest
      refine List.pairwise_cons.mpr ⟨?_, hys⟩
      intro b hb
      rcases List.mem_cons.mp hb with rfl | hb
      · exact hxy
      · exact pyLe_trans hxy ((List.pairwise_cons.mp hys).1 b hb)

/-! ### Induction principles for the mutual tree types -/

/-- Structural induction over `Entries` alone (for properties that do not
descend into child nodes). -/
theorem Entries.recSimple {P : Entries → Prop} (e : Entries) (h0 : P .nil)
    (h1 : ∀ k v rest, P rest → P (.cons k v rest)) : P e :=
  match e with
  | .nil => h0
  | .cons k v rest => h1 k v rest (Entries.recSimple rest h0 h1)

/-! ### Dictionary lemmas -/

theorem dictGet?_dictSet_self (d : Entries) (k : String) (v : Node) :
    dictGet? (dictSet d k v) k = some v := by
  induction d using Entries.recSimple with
  | h0 => simp [dictSet, dictGet?]
  | h1 k' v' rest ih =>
    by_cases h : k' = k
    · simp [dictSet, dictGet?, h]
    · simp [dictSet, dictGet?, h, ih]

theorem dictGet?_dictSet_ne (d : Entries) {k k' : String} (v : Node)
    (h : ¬ k' = k) : dictGet? (dictSet d k v) k' = dictGet? d k' := by
  have h' : ¬ k = k' := fun hh => h hh.symm
  induction d using Entries.recSimple with
  | h0 => simp [dictSet, dictGet?, h']
  | h1 k0 v0 rest ih =>
    by_cases h0 : k0 = k
    · subst h0
      simp [dictSet, dictGet?, h']
    · by_cases h1 : k0 = k'
      · simp [dictSet, dictGet?, h0, h1, h]
      · simp [dictSet, dictGet?, h0, h1, ih]

theorem dictGet?_dictDel_self {d : Entries} (k : String)
    (hnd : keysNodupB d = true) : dictGet? (dictDel d k) k = none := by
  induction d using Entries.recSimple with
  | h0 => simp [dictDel, dictGet?]
  | h1 k' v' rest ih =>
    simp only [keysNodupB, Bool.and_eq_true] at hnd
    by_cases h : k' = k
    · subst h
      rcases hnd with ⟨hmem, _⟩
      have hrest : dictGet? rest k' = none := by
        cases hlook : dictGet? rest k' with
        | none => rfl
        | some w => simp [hasKey, hlook] at hmem
      simp [dictDel, hrest]
    · simp [dictDel, dictGet?, h, ih hnd.2]

theorem dictGet?_dictDel_ne (d : Entries) {k k' : String} (h : ¬ k' = k) :
    dictGet? (dictDel d k) k' = dictGet? d k' := by
  induction d using Entries.recSimple with
  | h0 => simp [dictDel]
  | h1 k0 v0 rest ih =>
    by_cases h0 : k0 = k
    · subst h0
      have h' : ¬ k0 = k' := fun hh => h hh.symm
      simp [dictDel, dictGet?, h']
    · by_cases h1 : k0 = k'
      · simp [dictDel, dictGet?, h0, h1, h]
      · simp [dictDel, dictGet?, h0, h1, ih]

/-! ### Claim C4: path enumeration -/

theorem pathsLoop_perm_spec : ∀ fuel : Nat, ∀ d : Entries, ∀ p : String,
    sizeOf d ≤ fuel → (pathsLoop d p).Perm (leafPathsSpec d p) := by
  intro fuel
  induction fuel with
  | zero =>
    intro d p h
    cases d <;> simp at h
  | succ n ih =>
    intro d p h
    cases d with
    | nil => exact List.Perm.refl _
    | cons k v rest =>
      have hrest : sizeOf rest ≤ n := by simp at h; omega
      have htail := ih rest p hrest
      by_cases hk : k = "instruction"
      · simpa [pathsLoop, leafPathsSpec, hk] using htail
      · cases v with
        | vStr s => simpa [pathsLoop, leafPathsSpec, hk] using htail
        | vList ws => simpa [pathsLoop, leafPathsSpec, hk] using htail
        | vDict dd =>
          have hdd : sizeOf dd ≤ n := by simp at h; omega
          have hhead := ih dd (if p = "" then k else p ++ "/" ++ k) hdd
          have hhead' := (sortStrings_perm
            (pathsLoop dd (if p = "" then k else p ++ "/" ++ k))).trans hhead
          rcases hlook : dictGet? dd "wildcards" with _ | w
          · cases dd with
            | nil => simpa [pathsLoop, leafPathsSpec, hk, hlook] using htail
            | cons k1 v1 r1 =>
              simpa [pathsLoop, leafPathsSpec, hk, hlook, keysOf] using
                List.Perm.append hhead' htail
          · cases w with
            | vList ws => simpa [pathsLoop, leafPathsSpec, hk, hlook] using htail
            | vStr s =>
              cases dd with
              | nil => simp [dictGet?] at hlook
              | cons k1 v1 r1 =>
                simpa [pathsLoop, leafPathsSpec, hk, hlook, keysOf] using
                  List.Perm.append hhead' htail
            | vDict d2 =>
              cases dd with
              | nil => simp [dictGet?] at hlook
              | cons k1 v1 r1 =>
                simpa [pathsLoop, leafPathsSpec, hk, hlook, keysOf] using
                  List.Perm.append hhead' htail

theorem get_all_paths_eq_sorted_spec (d : Entries) (p : String) :
    get_all_paths d p = sortStrings (leafPathsSpec d p) := by
  have hperm := pathsLoop_perm_spec (sizeOf d) d p (Nat.le_refl _)
  exact sortStrings_eq_of_perm hperm

/-- Claim C4: `get_all_paths` returns the lexicographically sorted list of
the slash-joined full paths of exactly the leaf nodes (the spec-modelled
depth-first enumeration `leafPathsSpec`, in which empty branches contribute
no path), and on the tree `exampleTree` it returns exactly
`["cat1", "cat2/sub1", "cat2/sub2"]`. -/
theorem get_all_paths_enumerates_leaf_paths :
    (∀ d p, get_all_paths d p = sortStrings (leafPathsSpec d p)) ∧
    (∀ d p, SortedPy (get_all_paths d p)) ∧
    get_all_paths exampleTree "" = ["cat1", "cat2/sub1", "cat2/sub2"] :=
  ⟨get_all_paths_eq_sorted_spec,
   fun d p => sortStrings_sorted (pathsLoop d p),
   rfl⟩

/-! ### Split/join lemmas for path strings -/

theorem splitCharList_ne_nil (c : Char) (l : List Char) :
    splitCharList c l ≠ [] := by
  cases l with
  | nil => simp [splitCharList]
  | cons x xs =>
    simp only [splitCharList]
    rcases h : splitCharList c xs with _ | ⟨h1, t1⟩
    · simp
    · by_cases hx : x = c <;> simp [hx]

theorem pySplit_ne_nil (c : Char) (s : String) : pySplit c s ≠ [] := by
  simp only [pySplit, ne_eq, List.map_eq_nil_iff]
  exact splitCharList_ne_nil c s.data

theorem not_mem_of_mem_splitCharList (c : Char) : ∀ l piece,
    piece ∈ splitCharList c l → c ∉ piece := by
  intro l
  induction l with
  | nil =>
    intro piece h
    simp [splitCharList] at h
    simp [h]
  | cons x xs ih =>
    intro piece h
    simp only [splitCharList] at h
    rcases hs : splitCharList c xs with _ | ⟨h1, t1⟩
    · exact absurd hs (splitCharList_ne_nil c xs)
    · rw [hs] at h
      by_cases hx : x = c
      · simp only [hx, if_pos rfl] at h
        rcases List.mem_cons.mp h with rfl | h2
        · simp
        · exact ih piece (hs ▸ h2)
      · simp only [if_neg hx] at h
        rcases List.mem_cons.mp h with rfl | h2
        · intro hmem
          rcases List.mem_cons.mp hmem with rfl | hmem2
          · exact hx rfl
          · exact ih h1 (hs ▸ List.mem_cons_self h1 t1) hmem2
        · exact ih piece (hs ▸ List.mem_cons.mpr (Or.inr h2))

theorem splitCharList_of_not_mem {c : Char} : ∀ {l : List Char},
    c ∉ l → splitCharList c l = [l] := by
  intro l
  induction l with
  | nil => intro _; rfl
  | cons x xs ih =>
    intro h
    have hx : ¬ x = c := fun hh => h (hh ▸ List.mem_cons_self x xs)
    have hxs : c ∉ xs := fun hh => h (List.mem_cons.mpr (Or.inr hh))
    simp [splitCharList, ih hxs, hx]

theorem splitCharList_append_cons {c : Char} : ∀ {l1 : List Char}, c ∉ l1 →
    ∀ l2, splitCharList c (l1 ++ c :: l2) = l1 :: splitCharList c l2 := by
  intro l1
  induction l1 with
  | nil =>
    intro _ l2
    simp only [List.nil_append, splitCharList]
    rcases hs : splitCharList c l2 with _ | ⟨h1, t1⟩
    · exact absurd hs (splitCharList_ne_nil c l2)
    · simp
  | cons x xs ih =>
    intro h l2
    have hx : ¬ x = c := fun hh => h (hh ▸ List.mem_cons_self x xs)
    have hxs : c ∉ xs := fun hh => h (List.mem_cons.mpr (Or.inr hh))
    rw [List.cons_append]
    conv_lhs => rw [splitCharList]
    rw [ih hxs l2]
    simp [hx]

theorem data_append (s t : String) : (s ++ t).data = s.data ++ t.data := rfl

theorem pySplit_pyJoin : ∀ parts : List String, parts ≠ [] →
    (∀ p ∈ parts, ('/' : Char) ∉ p.data) →
    pySplit '/' (pyJoin "/" parts) = parts := by
  intro parts
  induction parts with
  | nil => intro h _; exact absurd rfl h
  | cons p rest ih =>
    intro _ hmem
    cases rest with
    | nil =>
      have hp : ('/' : Char) ∉ p.data := hmem p (List.mem_cons_self p [])
      simp [pyJoin, pySplit, splitCharList_of_not_mem hp]
    | cons q rest' =>
      have hp : ('/' : Char) ∉ p.data := hmem p (List.mem_cons_self _ _)
      have hrest : ∀ r ∈ q :: rest', ('/' : Char) ∉ r.data := by
        intro r hr
        exact hmem r (List.mem_cons.mpr (Or.inr hr))
      have hjoin : (pyJoin "/" (p :: q :: rest')).data =
          p.data ++ '/' :: (pyJoin "/" (q :: rest')).data := by
        show (p ++ "/" ++ pyJoin "/" (q :: rest')).data = _
        rw [data_append, data_append, List.append_assoc]
        rfl
      have ihq := ih (by simp) hrest
      simp only [pySplit] at ihq ⊢
      rw [hjoin, splitCharList_append_cons hp]
      simp only [List.map_cons]
      rw [ihq]

theorem pyJoin_ne_empty : ∀ parts : List String, parts ≠ [] → ¬ parts = [""] →
    (∀ p ∈ parts, ('/' : Char) ∉ p.data) → ¬ pyJoin "/" parts = "" := by
  intro parts
  cases parts with
  | nil => intro h _ _; exact absurd rfl h
  | cons p rest =>
    intro _ hne _
    cases rest with
    | nil =>
      intro hempty
      apply hne
      have hp : p = "" := by simpa [pyJoin] using hempty
      rw [hp]
    | cons q rest' =>
      intro hempty
      have : (pyJoin "/" (p :: q :: rest')).data = [] := by rw [hempty]
      have hdata : (pyJoin "/" (p :: q :: rest')).data =
          p.data ++ '/' :: (pyJoin "/" (q :: rest')).data := by
        show (p ++ "/" ++ pyJoin "/" (q :: rest')).data = _
        rw [data_append, data_append, List.append_assoc]; rfl
      rw [hdata] at this
      exact absurd this (by simp)

/-! ### Resolution bridging lemmas -/

theorem pyGetChain_of_resolveStrict : ∀ (parts : List String) (entries : Entries)
    (v : Node), resolveStrict entries parts = some v →
    pyGetChain (.vDict entries) parts = .ok v := by
  intro parts
  induction parts with
  | nil =>
    intro entries v h
    simp only [resolveStrict, Option.some_inj] at h
    simp [pyGetChain, ← h]
  | cons part rest ih =>
    intro entries v h
    simp only [resolveStrict] at h
    rcases hlook : dictGet? entries part with _ | w
    · rw [hlook] at h; exact absurd h (by simp)
    · rw [hlook] at h
      cases rest with
      | nil =>
        simp only [Option.some_inj] at h
        simp [pyGetChain, pyGetStep, hlook, pyGetChain, ← h]
      | cons r rs =>
        cases w with
        | vDict d =>
          simp only at h
          simp only [pyGetChain, pyGetStep, hlook]
          exact ih d v h
        | vStr s => exact absurd h (by simp)
        | vList ws => exact absurd h (by simp)

theorem resolveStrict_update : ∀ (parts : List String) (entries : Entries)
    (v : Node) (f : Node → Node), parts ≠ [] →
    resolveStrict entries parts = some v →
    resolveStrict (updateNodeByPath entries f parts) parts = some (f v) := by
  intro parts
  induction parts with
  | nil => intro _ _ _ h _; exact absurd rfl h
  | cons part rest ih =>
    intro entries v f _ h
    simp only [resolveStrict] at h
    rcases hlook : dictGet? entries part with _ | w
    · rw [hlook] at h; exact absurd h (by simp)
    · rw [hlook] at h
      cases rest with
      | nil =>
        simp only [Option.some_inj] at h
        subst h
        simp [updateNodeByPath, hlook, resolveStrict, dictGet?_dictSet_self]
      | cons r rs =>
        cases w with
        | vDict d =>
          simp only at h
          simp only [updateNodeByPath, hlook, resolveStrict,
            dictGet?_dictSet_self]
          exact ih d v f (by simp) h
        | vStr s => exact absurd h (by simp)
        | vList ws => exact absurd h (by simp)

theorem resolveStrict_update_off_path : ∀ (parts q : List String)
    (entries : Entries) (f : Node → Node), ¬ parts <+: q → ¬ q <+: parts →
    resolveStrict (updateNodeByPath entries f parts) q =
      resolveStrict entries q := by
  intro parts
  induction parts with
  | nil => intro q _ _ h1 _; exact absurd (List.nil_prefix) h1
  | cons p ps ih =>
    intro q entries f h1 h2
    cases q with
    | nil => exact absurd (List.nil_prefix) h2
    | cons a qs =>
      by_cases hap : a = p
      · subst hap
        have hps : ¬ ps <+: qs := fun hh => h1 (List.cons_prefix_cons.mpr ⟨rfl, hh⟩)
        have hqs : ¬ qs <+: ps := fun hh => h2 (List.cons_prefix_cons.mpr ⟨rfl, hh⟩)
        rcases hlook : dictGet? entries a with _ | w
        · simp [updateNodeByPath, hlook]
        · cases ps with
          | nil => exact absurd List.nil_prefix hps
          | cons p1 ps1 =>
            cases w with
            | vDict d =>
              cases qs with
              | nil => exact absurd List.nil_prefix hqs
              | cons a1 qs1 =>
                simp only [updateNodeByPath, hlook, resolveStrict,
                  dictGet?_dictSet_self]
                exact ih (a1 :: qs1) d f hps hqs
            | vStr s => simp [updateNodeByPath, hlook]
            | vList ws => simp [updateNodeByPath, hlook]
      · have hne : ¬ a = p := hap
        have step : dictGet? (updateNodeByPath entries f (p :: ps)) a =
            dictGet? entries a := by
          rcases hlook : dictGet? entries p with _ | w
          · simp [updateNodeByPath, hlook]
          · cases ps with
            | nil =>
              simp [updateNodeByPath, hlook, dictGet?_dictSet_ne _ _ hne]
            | cons p1 ps1 =>
              cases w with
              | vDict d =>
                simp [updateNodeByPath, hlook, dictGet?_dictSet_ne _ _ hne]
              | vStr s => simp [updateNodeByPath, hlook]
              | vList ws => simp [updateNodeByPath, hlook]
        simp only [resolveStrict, step]

/-! ### Claim C8: missing credentials fail fast -/

/-- Claim C8: calling the generation adapter for `gemini` with an absent or
empty API key, or for `custom` with an absent or empty base URL, yields the
configuration `ValueError` before any request is constructed (the prepared
request triple is never produced). -/
theorem generation_missing_credentials_fail_fast :
    (∀ (api_keys models : List (String × String)) (gp path : String)
       (ew : List String) (ci : String),
      (sGet api_keys "gemini" = none ∨ sGet api_keys "gemini" = some "") →
      generate_wildcards_request "gemini" api_keys models gp path ew ci =
        .error "Gemini API key not provided in settings.") ∧
    (∀ (api_keys models : List (String × String)) (gp path : String)
       (ew : List String) (ci : String),
      (sGet models "custom_url" = none ∨ sGet models "custom_url" = some "") →
      generate_wildcards_request "custom" api_keys models gp path ew ci =
        .error "Custom API URL not provided in settings.") := by
  constructor
  · intro api_keys models gp path ew ci h
    have hf : optStrFalsy (sGet api_keys "gemini") = true := by
      rcases h with h | h <;> simp [optStrFalsy, h]
    simp [generate_wildcards_request, prepare_request, hf]
  · intro api_keys models gp path ew ci h
    have hf : sGetD models "custom_url" "" = "" := by
      rcases h with h | h <;> simp [sGetD, h]
    simp [generate_wildcards_request, prepare_request, hf]

/-- Witness for C8 at concrete inputs: an empty-string Gemini key and a
models table without `custom_url`. -/
theorem generation_missing_credentials_witness :
    generate_wildcards_request "gemini" [("gemini", "")] [] "g" "p" [] "i" =
      .error "Gemini API key not provided in settings." ∧
    generate_wildcards_request "custom" [] [("custom", "m")] "g" "p" [] "i" =
      .error "Custom API URL not provided in settings." :=
  ⟨generation_missing_credentials_fail_fast.1 _ _ _ _ _ _ (Or.inr rfl),
   generation_missing_credentials_fail_fast.2 _ _ _ _ _ _ (Or.inl rfl)⟩

/-! ### Claim C10: sibling keys are the parent's raw key list -/

theorem mem_keysOf_of_hasKey : ∀ {d : Entries} {k : String},
    hasKey d k = true → k ∈ keysOf d := by
  intro d
  induction d using Entries.recSimple with
  | h0 => intro k h; simp [hasKey, dictGet?] at h
  | h1 k' v rest ih =>
    intro k h
    by_cases hk : k' = k
    · subst hk; exact List.mem_cons_self _ _
    · simp only [hasKey, dictGet?, if_neg hk] at h
      exact List.mem_cons.mpr (Or.inr (ih h))

theorem not_slash_of_mem_pySplit (s : String) (p : String)
    (hp : p ∈ pySplit '/' s) : ('/' : Char) ∉ p.data := by
  simp only [pySplit, List.mem_map] at hp
  rcases hp with ⟨piece, hpiece, rfl⟩
  exact not_mem_of_mem_splitCharList '/' s.data piece hpiece

/-- Claim C10: for a path of two or more segments whose parent resolves to
a branch dict, `get_parent_structure_by_path` returns the parent's raw key
list, the reserved `instruction` key included when the parent carries one;
for an empty or one-segment path it returns the top-level keys. -/
theorem parent_structure_is_raw_key_list :
    (∀ (state : AppState) (path : String) (pp : List String) (c : String)
       (d : Entries),
      pySplit '/' path = pp ++ [c] → pp ≠ [] → ¬ pp = [""] →
      resolveStrict state.wildcards pp = some (.vDict d) →
      hasKey d "instruction" = true →
      get_parent_structure_by_path path state = .ok (keysOf d) ∧
        "instruction" ∈ keysOf d) ∧
    (∀ (state : AppState) (path : String),
      path = "" ∨ (pySplit '/' path).length = 1 →
      get_parent_structure_by_path path state = .ok (keysOf state.wildcards)) := by
  constructor
  · intro state path pp c d h1 hpp hpp1 hres hinstr
    have hslash : ∀ p ∈ pp, ('/' : Char) ∉ p.data := by
      intro p hmem
      exact not_slash_of_mem_pySplit path p
        (h1 ▸ List.mem_append.mpr (Or.inl hmem))
    have hpath : ¬ path = "" := by
      intro he
      rw [he] at h1
      have hlen := congrArg List.length h1
      simp [pySplit, splitCharList] at hlen
      exact hpp hlen
    have hlen1 : ¬ (pySplit '/' path).length = 1 := by
      rw [h1]
      simp only [List.length_append, List.length_cons, List.length_nil]
      intro hc
      exact hpp (List.length_eq_zero.mp (by omega))
    have hdrop : (pySplit '/' path).dropLast = pp := by
      rw [h1]; exact List.dropLast_concat
    have hjoin_ne : ¬ pyJoin "/" pp = "" := pyJoin_ne_empty pp hpp hpp1 hslash
    have hresplit : pySplit '/' (pyJoin "/" pp) = pp := pySplit_pyJoin pp hpp hslash
    have hchain := pyGetChain_of_resolveStrict pp state.wildcards _ hres
    have hd_ne : d ≠ .nil := by
      intro he; rw [he] at hinstr; simp [hasKey, dictGet?] at hinstr
    have htruthy : truthy (.vDict d) = true := by
      cases d with
      | nil => exact absurd rfl hd_ne
      | cons k0 v0 r0 => rfl
    refine ⟨?_, mem_keysOf_of_hasKey hinstr⟩
    simp only [get_parent_structure_by_path, if_neg hpath, hdrop, hlen1,
      if_neg hlen1, get_data_by_path, if_neg hjoin_ne, hresplit, hchain,
      htruthy, if_pos rfl]
    simp
  · intro state path h
    rcases h with h | h
    · simp [get_parent_structure_by_path, h]
    · by_cases hp : path = ""
      · simp [get_parent_structure_by_path, hp]
      · simp [get_parent_structure_by_path, hp, h]

/-- Witness for C10 at a concrete state: the parent of `Parent/Child`
carries an `instruction` entry and the returned key list contains it
unfiltered; a one-segment path returns the top-level keys. -/
theorem parent_structure_is_raw_key_list_witness :
    (get_parent_structure_by_path "Parent/Child" parentState =
        .ok ["Child", "instruction"] ∧
      "instruction" ∈ ["Child", "instruction"]) ∧
    get_parent_structure_by_path "Parent" parentState = .ok ["Parent"] :=
  ⟨parent_structure_is_raw_key_list.1 parentState "Parent/Child" ["Parent"]
      "Child" (.cons "Child" (leafT "" []) (.cons "instruction" (.vStr "hint") .nil))
      rfl (by simp) (by simp) rfl rfl,
   parent_structure_is_raw_key_list.2 parentState "Parent" (Or.inr rfl)⟩

/-! ### Claim C3: adding a wildcard keeps the leaf sorted and duplicate-free -/

/-- Claim C3: for every state whose path resolves to a leaf record and every
non-blank wildcard string, `add_wildcard_handler` succeeds and stores back
`sorted(set(ws + [stripped]))` — a sorted, duplicate-free list — as the
leaf's wildcard list. -/
theorem add_wildcard_keeps_sorted_nodup :
    ∀ (state : AppState) (path new_wildcard i : String) (ws : List String),
      ¬ path = "" → ¬ pyStrip new_wildcard = "" →
      resolveStrict state.wildcards (pySplit '/' path) = some (leafT i ws) →
      ∃ st' : AppState,
        add_wildcard_handler path new_wildcard state = .ok st' ∧
        resolveStrict st'.wildcards (pySplit '/' path) =
          some (leafT i (sortStrings ((ws ++ [pyStrip new_wildcard]).dedup))) ∧
        strictSorted (sortStrings ((ws ++ [pyStrip new_wildcard]).dedup)) = true := by
  intro state path new_wildcard i ws hpath hnew hres
  have hchain := pyGetChain_of_resolveStrict _ _ _ hres
  have hget : get_data_by_path path state = .ok (some (leafT i ws)) := by
    simp [get_data_by_path, hpath, hchain]
  have hwc : dictGet? (entriesOf (leafT i ws)) "wildcards" = some (.vList ws) := by
    simp [leafT, entriesOf, dictGet?]
  refine ⟨⟨updateNodeByPath state.wildcards (fun n =>
      match n with
      | .vDict nd => .vDict (dictSet nd "wildcards"
          (.vList (sortStrings ((ws ++ [pyStrip new_wildcard]).dedup))))
      | n => n) (pySplit '/' path)⟩, ?_, ?_, ?_⟩
  · simp only [add_wildcard_handler, hget]
    simp [hpath, hnew, leafT, truthy, dictGet?]
  · have hupd := resolveStrict_update (pySplit '/' path) state.wildcards
      (leafT i ws) (fun n =>
        match n with
        | .vDict nd => .vDict (dictSet nd "wildcards"
            (.vList (sortStrings ((ws ++ [pyStrip new_wildcard]).dedup))))
        | n => n) (pySplit_ne_nil '/' path) hres
    rw [hupd]
    simp [leafT, dictSet]
  · exact strictSorted_sortStrings_dedup _

/-- Witness for C3: on the leaf `["a","c"]`, adding `"b"` succeeds with the
sorted duplicate-free result, and the chain add `"b"` then re-add `"a"`
produces exactly `["a","b","c"]`. -/
theorem add_wildcard_keeps_sorted_nodup_witness :
    (∃ st' : AppState,
        add_wildcard_handler "cat" "b" addState = .ok st' ∧
        resolveStrict st'.wildcards (pySplit '/' "cat") =
          some (leafT "" (sortStrings (((["a", "c"] : List String)
            ++ [pyStrip "b"]).dedup))) ∧
        strictSorted (sortStrings (((["a", "c"] : List String)
          ++ [pyStrip "b"]).dedup)) = true) ∧
    (add_wildcard_handler "cat" "b" addState).bind (add_wildcard_handler "cat" "a") =
      .ok ⟨.cons "cat" (leafT "" ["a", "b", "c"]) .nil⟩ :=
  ⟨add_wildcard_keeps_sorted_nodup addState "cat" "b" "" ["a", "c"]
      (by decide) (by decide) rfl, rfl⟩

/-! ### Claim C6: deletion removes exactly the addressed entry -/

theorem getLastD_concat_eq (pp : List String) (c dflt : String) :
    (pp ++ [c]).getLastD dflt = c := by
  induction pp with
  | nil => rfl
  | cons p rest ih =>
    cases rest with
    | nil => rfl
    | cons q rest' => simpa using ih

/-- Claim C6: deleting `Parent/Child` (any multi-segment path) removes
exactly the final key from the parent dict — the parent node remains, its
other entries are untouched, and every node not on the parent's spine
resolves unchanged; deleting a one-segment path removes exactly that entry
from the root mapping. -/
theorem delete_category_removes_exactly_child :
    (∀ (state : AppState) (path : String) (pp : List String) (c : String)
       (d : Entries),
      pySplit '/' path = pp ++ [c] → pp ≠ [] → ¬ pp = [""] →
      resolveStrict state.wildcards pp = some (.vDict d) →
      hasKey d c = true → keysNodupB d = true →
      ∃ st' : AppState,
        delete_category_handler path state = .ok st' ∧
        resolveStrict st'.wildcards pp = some (.vDict (dictDel d c)) ∧
        dictGet? (dictDel d c) c = none ∧
        (∀ k, ¬ k = c → dictGet? (dictDel d c) k = dictGet? d k) ∧
        (∀ q : List String, ¬ pp <+: q → ¬ q <+: pp →
          resolveStrict st'.wildcards q = resolveStrict state.wildcards q)) ∧
    (∀ (state : AppState) (path : String),
      ¬ path = "" → (pySplit '/' path).length = 1 →
      delete_category_handler path state = .ok ⟨dictDel state.wildcards path⟩ ∧
      (keysNodupB state.wildcards = true →
        dictGet? (dictDel state.wildcards path) path = none) ∧
      (∀ k, ¬ k = path → dictGet? (dictDel state.wildcards path) k =
        dictGet? state.wildcards k)) := by
  constructor
  · intro state path pp c d h1 hpp hpp1 hres hmem hnd
    have hslash : ∀ p ∈ pp, ('/' : Char) ∉ p.data := by
      intro p hm
      exact not_slash_of_mem_pySplit path p
        (h1 ▸ List.mem_append.mpr (Or.inl hm))
    have hpath : ¬ path = "" := by
      intro he
      rw [he] at h1
      have hlen := congrArg List.length h1
      simp [pySplit, splitCharList] at hlen
      exact hpp hlen
    have hlen1 : ¬ (pySplit '/' path).length = 1 := by
      rw [h1]
      simp only [List.length_append, List.length_cons, List.length_nil]
      intro hc
      exact hpp (List.length_eq_zero.mp (by omega))
    have hdrop : (pySplit '/' path).dropLast = pp := by
      rw [h1]; exact List.dropLast_concat
    have hlast : (pySplit '/' path).getLastD "" = c := by
      rw [h1]; exact getLastD_concat_eq pp c ""
    have hjoin_ne : ¬ pyJoin "/" pp = "" := pyJoin_ne_empty pp hpp hpp1 hslash
    have hresplit : pySplit '/' (pyJoin "/" pp) = pp := pySplit_pyJoin pp hpp hslash
    have hchain := pyGetChain_of_resolveStrict pp state.wildcards _ hres
    have hd_ne : d ≠ .nil := by
      intro he; rw [he] at hmem; simp [hasKey, dictGet?] at hmem
    have htruthy : truthy (.vDict d) = true := by
      cases d with
      | nil => exact absurd rfl hd_ne
      | cons k0 v0 r0 => rfl
    refine ⟨⟨updateNodeByPath state.wildcards (fun n =>
        match n with
        | .vDict pd => .vDict (dictDel pd c)
        | n => n) pp⟩, ?_, ?_, dictGet?_dictDel_self c hnd,
      fun k hk => dictGet?_dictDel_ne d hk,
      fun q hq1 hq2 => resolveStrict_update_off_path pp q state.wildcards _ hq1 hq2⟩
    · simp only [delete_category_handler, if_neg hpath, hdrop, hlast,
        if_neg hlen1, get_data_by_path, if_neg hjoin_ne, hresplit, hchain,
        htruthy, hmem, Bool.and_self, if_pos rfl]
      simp
    · have hupd := resolveStrict_update pp state.wildcards (.vDict d)
        (fun n =>
          match n with
          | .vDict pd => .vDict (dictDel pd c)
          | n => n) hpp hres
      rw [hupd]
  · intro state path hpath hlen
    refine ⟨?_, fun hnd => dictGet?_dictDel_self path hnd,
      fun k hk => dictGet?_dictDel_ne state.wildcards hk⟩
    simp [delete_category_handler, hpath, hlen]

/-- Witness for C6 at a concrete state: deleting `Parent/Child` keeps
`Parent` and its sibling `Other` as well as the unrelated root entry `Top`;
deleting the one-segment `Top` removes only that root entry. -/
theorem delete_category_removes_exactly_child_witness :
    (∃ st' : AppState,
        delete_category_handler "Parent/Child" delState = .ok st' ∧
        resolveStrict st'.wildcards ["Parent"] =
          some (.vDict (dictDel (.cons "Child" (leafT "" [])
            (.cons "Other" (leafT "" []) .nil)) "Child")) ∧
        dictGet? (dictDel (.cons "Child" (leafT "" [])
            (.cons "Other" (leafT "" []) .nil)) "Child") "Child" = none ∧
        (∀ k, ¬ k = "Child" →
          dictGet? (dictDel (.cons "Child" (leafT "" [])
            (.cons "Other" (leafT "" []) .nil)) "Child") k =
          dictGet? (.cons "Child" (leafT "" [])
            (.cons "Other" (leafT "" []) .nil)) k) ∧
        (∀ q : List String, ¬ ["Parent"] <+: q → ¬ q <+: ["Parent"] →
          resolveStrict st'.wildcards q = resolveStrict delState.wildcards q)) ∧
    (delete_category_handler "Top" delState =
        .ok ⟨dictDel delState.wildcards "Top"⟩ ∧
      (keysNodupB delState.wildcards = true →
        dictGet? (dictDel delState.wildcards "Top") "Top" = none) ∧
      (∀ k, ¬ k = "Top" → dictGet? (dictDel delState.wildcards "Top") k =
        dictGet? delState.wildcards k)) :=
  ⟨delete_category_removes_exactly_child.1 delState "Parent/Child" ["Parent"]
      "Child" (.cons "Child" (leafT "" []) (.cons "Other" (leafT "" []) .nil))
      rfl (by simp) (by simp) rfl rfl rfl,
   delete_category_removes_exactly_child.2 delState "Top" (by decide) rfl⟩

/-! ### Claim C9: resolution totality -/

theorem isLeafShape_spec : ∀ {d : Entries}, isLeafShape d = true →
    ∃ i ws, d = .cons "instruction" (.vStr i)
      (.cons "wildcards" (.vList ws) .nil) ∧ strictSorted ws = true := by
  intro d h
  unfold isLeafShape at h
  split at h
  · next i ws => exact ⟨i, ws, rfl, h⟩
  · exact absurd h (by simp)

theorem isLeafShape_lookup {d : Entries} {k : String}
    (h : isLeafShape d = true) (h1 : ¬ k = "instruction")
    (h2 : ¬ k = "wildcards") : dictGet? d k = none := by
  rcases isLeafShape_spec h with ⟨i, ws, rfl, _⟩
  have h1' : ¬ "instruction" = k := fun hh => h1 hh.symm
  have h2' : ¬ "wildcards" = k := fun hh => h2 hh.symm
  simp [dictGet?, h1', h2']

theorem wfBranch_lookup : ∀ {d : Entries} {k : String} {v : Node},
    wfBranchEntries d = true → dictGet? d k = some v → ¬ k = "instruction" →
    wfNode v = true := by
  intro d
  induction d using Entries.recSimple with
  | h0 => intro k v _ hl _; simp [dictGet?] at hl
  | h1 k' v' rest ih =>
    intro k v hwf hl hk
    simp only [wfBranchEntries, Bool.and_eq_true] at hwf
    by_cases hkk : k' = k
    · subst hkk
      simp [dictGet?] at hl
      rcases hwf with ⟨hhead, _⟩
      rw [if_neg hk] at hhead
      simp only [Bool.and_eq_true] at hhead
      subst hl
      exact hhead.2
    · simp only [dictGet?, if_neg hkk] at hl
      exact ih hwf.2 hl hk

theorem wfNode_dict : ∀ {v : Node}, wfNode v = true → ∃ d, v = .vDict d ∧
    (∀ k w, dictGet? d k = some w → ¬ k = "instruction" → ¬ k = "wildcards" →
      wfNode w = true) := by
  intro v h
  cases v with
  | vStr s => exact absurd h (by simp [wfNode])
  | vList ws => exact absurd h (by simp [wfNode])
  | vDict d =>
    refine ⟨d, rfl, ?_⟩
    intro k w hl h1 h2
    simp only [wfNode, Bool.or_eq_true] at h
    rcases h with h | h
    · rw [isLeafShape_lookup h h1 h2] at hl
      exact absurd hl (by simp)
    · simp only [Bool.and_eq_true] at h
      exact wfBranch_lookup h.2 hl h1

theorem pyGetChain_total_on_wf : ∀ (parts : List String) (d : Entries),
    (∀ k w, dictGet? d k = some w → ¬ k = "instruction" → ¬ k = "wildcards" →
      wfNode w = true) →
    (∀ seg ∈ parts, ¬ seg = "instruction" ∧ ¬ seg = "wildcards") →
    ∃ r, pyGetChain (.vDict d) parts = .ok r ∧
      (resolveStrict d parts = some r ∨
        (resolveStrict d parts = none ∧ r = .vDict .nil)) := by
  intro parts
  induction parts with
  | nil =>
    intro d _ _
    exact ⟨.vDict d, rfl, Or.inl rfl⟩
  | cons part rest ih =>
    intro d hgood hsegs
    have hpart := hsegs part (List.mem_cons_self _ _)
    have hrest : ∀ seg ∈ rest, ¬ seg = "instruction" ∧ ¬ seg = "wildcards" :=
      fun seg hs => hsegs seg (List.mem_cons.mpr (Or.inr hs))
    rcases hlook : dictGet? d part with _ | v
    · have hnil : ∀ k w, dictGet? (Entries.nil) k = some w →
          ¬ k = "instruction" → ¬ k = "wildcards" → wfNode w = true := by
        intro k w hl _ _; simp [dictGet?] at hl
      rcases ih .nil hnil hrest with ⟨r, hchain, hcases⟩
      have hr : r = .vDict .nil := by
        rcases hcases with hc | hc
        · cases rest with
          | nil => simpa [resolveStrict] using hc.symm
          | cons r1 rs => simp [resolveStrict, dictGet?] at hc
        · exact hc.2
      refine ⟨r, ?_, Or.inr ⟨?_, hr⟩⟩
      · simpa [pyGetChain, pyGetStep, hlook] using hchain
      · cases rest with
        | nil => simp [resolveStrict, hlook]
        | cons r1 rs => simp [resolveStrict, hlook]
    · have hwfv : wfNode v = true := hgood part v hlook hpart.1 hpart.2
      rcases wfNode_dict hwfv with ⟨d', rfl, hgood'⟩
      rcases ih d' hgood' hrest with ⟨r, hchain, hcases⟩
      cases rest with
      | nil =>
        refine ⟨.vDict d', ?_, Or.inl ?_⟩
        · simp [pyGetChain, pyGetStep, hlook]
        · simp [resolveStrict, hlook]
      | cons r1 rs =>
        refine ⟨r, ?_, ?_⟩
        · simpa [pyGetChain, pyGetStep, hlook] using hchain
        · simpa [resolveStrict, hlook] using hcases

/-- Claim C9 (amended): on a data-model tree, `get_data_by_path` never
raises and returns the empty-dict sentinel whenever a segment misses —
provided no path segment names a reserved leaf field
(`instruction`/`wildcards`); a path through a reserved field raises
`AttributeError` (see the counterexample). -/
theorem get_data_by_path_total_on_wf_trees :
    ∀ (state : AppState) (path : String),
      wfRoot state.wildcards = true → ¬ path = "" →
      (∀ seg ∈ pySplit '/' path, ¬ seg = "instruction" ∧ ¬ seg = "wildcards") →
      ∃ r : Node, get_data_by_path path state = .ok (some r) ∧
        (resolveStrict state.wildcards (pySplit '/' path) = some r ∨
          (resolveStrict state.wildcards (pySplit '/' path) = none ∧
            r = .vDict .nil)) := by
  intro state path hwf hpath hsegs
  have hgood : ∀ k w, dictGet? state.wildcards k = some w →
      ¬ k = "instruction" → ¬ k = "wildcards" → wfNode w = true := by
    intro k w hl h1 _
    simp only [wfRoot, Bool.and_eq_true] at hwf
    exact wfBranch_lookup hwf.2 hl h1
  rcases pyGetChain_total_on_wf (pySplit '/' path) state.wildcards hgood hsegs
    with ⟨r, hchain, hcases⟩
  exact ⟨r, by simp [get_data_by_path, hpath, hchain], hcases⟩

/-- Counterexample to claim C9 as stated: on a well-formed tree the path
`a/instruction/b` (whose middle segment names the reserved instruction
field of the leaf `a`) makes `get_data_by_path` raise `AttributeError`
(Python calls `.get` on a string), rather than returning the absent-node
sentinel. -/
theorem get_data_by_path_raises_on_reserved_path :
    wfRoot reservedState.wildcards = true ∧
    get_data_by_path "a/instruction/b" reservedState = .error "AttributeError" :=
  ⟨rfl, rfl⟩

/-- Witness for the amended C9: a present path and a missing path on a
well-formed tree, neither raising; the missing one returns the empty dict. -/
theorem get_data_by_path_total_witness :
    (∃ r : Node, get_data_by_path "a" reservedState = .ok (some r) ∧
      (resolveStrict reservedState.wildcards (pySplit '/' "a") = some r ∨
        (resolveStrict reservedState.wildcards (pySplit '/' "a") = none ∧
          r = .vDict .nil))) ∧
    (∃ r : Node, get_data_by_path "missing/x" reservedState = .ok (some r) ∧
      (resolveStrict reservedState.wildcards (pySplit '/' "missing/x") = some r ∨
        (resolveStrict reservedState.wildcards (pySplit '/' "missing/x") = none ∧
          r = .vDict .nil))) :=
  ⟨get_data_by_path_total_on_wf_trees reservedState "a" rfl (by decide)
      (by decide),
   get_data_by_path_total_on_wf_trees reservedState "missing/x" rfl (by decide)
      (by decide)⟩

/-! ### Claim C2: the exclusivity invariant is broken by category creation -/

/-- Claim C2 fails on the code: starting from the empty tree (which
satisfies the leaf-XOR-branch invariant), `create_category_confirm "a/b"`
inserts the missing intermediate segment `a` as a leaf record
`{instruction: "", wildcards: []}` and then descends into it and adds the
child `b`, producing a node that carries both a `wildcards` list and a
child category key — the exclusivity invariant no longer holds. -/
theorem create_category_multi_segment_breaks_exclusivity :
    exclusiveEntries Entries.nil = true ∧
    create_category_confirm "a/b" ⟨.nil⟩ =
      .ok ⟨.cons "a" (.vDict (.cons "instruction" (.vStr "")
        (.cons "wildcards" (.vList [])
          (.cons "b" newCategoryNode .nil)))) .nil⟩ ∧
    exclusiveEntries (.cons "a" (.vDict (.cons "instruction" (.vStr "")
      (.cons "wildcards" (.vList [])
        (.cons "b" newCategoryNode .nil)))) .nil) = false :=
  ⟨rfl, rfl, rfl⟩

/-! ### Claim C7: generation fallback parsing -/

/-- Claim C7: the object-unwrapping of the generation parser coincides with
the spec-modelled search (wrapper keys `wildcards`, `items`, `categories`
in order, then the first list-valued field, else empty; an array is
returned as is), and the full openrouter-shaped pipeline on a fenced code
block containing `{"wildcards": ["x","y"]}` returns exactly `["x","y"]`. -/
theorem generation_fallback_parsing :
    (∀ content : Json, extract_wildcards_content content = specWrapperSearch content) ∧
    parse_openrouter_generation fencedResponse = .ok [.jstr "x", .jstr "y"] := by
  refine ⟨?_, rfl⟩
  intro content
  cases content with
  | jnull => rfl
  | jbool b => rfl
  | jnum n => rfl
  | jstr s => rfl
  | jarr xs => rfl
  | jobj fields =>
    rcases h1 : jLookup fields "wildcards" with _ | v1 <;>
      rcases h2 : jLookup fields "items" with _ | v2 <;>
        rcases h3 : jLookup fields "categories" with _ | v3
    all_goals try cases v1
    all_goals try cases v2
    all_goals try cases v3
    all_goals
      simp [extract_wildcards_content, specWrapperSearch,
        List.findSome?, h1, h2, h3]

/-! ### Character-level lemmas about stripping and prefixes -/

theorem str_ext {a b : String} (h : a.data = b.data) : a = b := by
  cases a; cases b; exact congrArg String.mk h

theorem dropWhile_eq_self_of_len {p : Char → Bool} {l : List Char}
    (h : (l.dropWhile p).length = l.length) : l.dropWhile p = l :=
  (List.dropWhile_sublist p).eq_of_length h

theorem length_dropWhile_le_self (p : Char → Bool) (l : List Char) :
    (l.dropWhile p).length ≤ l.length :=
  (List.dropWhile_sublist p).length_le

theorem head_not_space {c : Char} {t : List Char}
    (h : List.dropWhile pyIsSpace (c :: t) = c :: t) : pyIsSpace c = false := by
  cases hp : pyIsSpace c
  · rfl
  · simp only [List.dropWhile_cons, hp, if_true] at h
    have hlen := congrArg List.length h
    have hle := length_dropWhile_le_self pyIsSpace t
    simp only [List.length_cons] at hlen
    omega

theorem pyStrip_parts {s : String} (h : pyStrip s = s) :
    trimLeftChars s.data = s.data ∧ trimRightChars s.data = s.data := by
  have hd : trimLeftChars (trimRightChars s.data) = s.data := congrArg String.data h
  have len1 : (trimLeftChars (trimRightChars s.data)).length ≤
      (trimRightChars s.data).length :=
    length_dropWhile_le_self pyIsSpace (trimRightChars s.data)
  have len2 : (trimRightChars s.data).length ≤ s.data.length := by
    simpa [trimRightChars] using
      length_dropWhile_le_self pyIsSpace s.data.reverse
  have heqlen : (trimRightChars s.data).length = s.data.length := by
    have := congrArg List.length hd; omega
  have hR : trimRightChars s.data = s.data := by
    have h2 : (List.dropWhile pyIsSpace s.data.reverse).length =
        s.data.reverse.length := by
      have := heqlen
      simpa [trimRightChars] using this
    have h3 := dropWhile_eq_self_of_len h2
    simp [trimRightChars, h3]
  refine ⟨?_, hR⟩
  rw [hR] at hd
  exact hd

theorem dropWhile_reverse_of_trimR {l : List Char} (h : trimRightChars l = l) :
    List.dropWhile pyIsSpace l.reverse = l.reverse := by
  have := congrArg List.reverse h
  simpa [trimRightChars] using this

theorem data_ne_nil_of_ne_empty {s : String} (h : ¬ s = "") : s.data ≠ [] := by
  cases s with
  | mk d =>
    intro hd
    have hd2 : d = [] := hd
    exact h (by rw [hd2])

theorem trimR_append_of_fixed {d : List Char}
    (hfix : List.dropWhile pyIsSpace d.reverse = d.reverse) (hne : d ≠ [])
    (pre : List Char) : trimRightChars (pre ++ d) = pre ++ d := by
  unfold trimRightChars
  rw [List.reverse_append]
  rcases List.exists_cons_of_ne_nil (fun hh : d.reverse = [] =>
    hne (by simpa using congrArg List.reverse hh)) with ⟨c, t, hct⟩
  have hc : pyIsSpace c = false := by
    rw [hct] at hfix
    exact head_not_space hfix
  rw [hct, List.cons_append, List.dropWhile_cons, if_neg (by simp [hc])]
  have hrev : (c :: (t ++ pre.reverse)).reverse = pre ++ (c :: t).reverse := by
    simp
  rw [hrev, ← hct, List.reverse_reverse]

theorem isPrefixChars_append (a b : List Char) :
    isPrefixChars a (a ++ b) = true := by
  induction a with
  | nil => rfl
  | cons c t ih => simp [isPrefixChars, ih]

theorem isPrefixChars_append_both (a b c : List Char) :
    isPrefixChars (a ++ b) (a ++ c) = isPrefixChars b c := by
  induction a with
  | nil => rfl
  | cons x t ih => simp [isPrefixChars, ih]

theorem replaceFirst_of_prefixChars {pat l : List Char}
    (h : isPrefixChars pat l = true) :
    replaceFirstChars pat l = l.drop pat.length := by
  cases l with
  | nil =>
    cases pat with
    | nil => rfl
    | cons a t => simp [isPrefixChars] at h
  | cons c cs => simp [replaceFirstChars, h]

/-! ### Claim C5: comment extraction -/

theorem pyStrip_append_of_head_not_space {pre i : String}
    (hpre : ∃ c t, pre.data = c :: t ∧ pyIsSpace c = false)
    (hi : pyStrip i = i) (hne : ¬ i = "") : pyStrip (pre ++ i) = pre ++ i := by
  rcases pyStrip_parts hi with ⟨hL, hR⟩
  have hrev := dropWhile_reverse_of_trimR hR
  have hdne := data_ne_nil_of_ne_empty hne
  apply str_ext
  show trimLeftChars (trimRightChars (pre ++ i).data) = (pre ++ i).data
  rw [data_append, trimR_append_of_fixed hrev hdne pre.data]
  rcases hpre with ⟨c, t, hct, hc⟩
  rw [hct, List.cons_append]
  unfold trimLeftChars
  rw [List.dropWhile_cons, if_neg (by simp [hc])]

theorem pyStrip_space_append {i : String} (hi : pyStrip i = i) :
    pyStrip (" " ++ i) = i := by
  by_cases hne : i = ""
  · subst hne; decide
  · rcases pyStrip_parts hi with ⟨hL, hR⟩
    have hrev := dropWhile_reverse_of_trimR hR
    have hdne := data_ne_nil_of_ne_empty hne
    apply str_ext
    show trimLeftChars (trimRightChars (" " ++ i).data) = i.data
    rw [data_append]
    have hsp : (" " : String).data = [' '] := by decide
    rw [hsp, trimR_append_of_fixed hrev hdne [' ']]
    show trimLeftChars (' ' :: i.data) = i.data
    unfold trimLeftChars at hL ⊢
    rw [List.dropWhile_cons, if_pos (by decide)]
    exact hL

theorem parseCommentToken_instruction {i : String} (hi : pyStrip i = i)
    (hne : ¬ i = "") : parseCommentToken ("# instruction: " ++ i) = i := by
  have hdecomp : ("# instruction: " ++ i : String) = "# instruction:" ++ (" " ++ i) := by
    apply str_ext
    rw [data_append, data_append, data_append]
    rw [show ("# instruction: " : String).data =
      "# instruction:".data ++ (" " : String).data from by decide]
    rw [List.append_assoc]
  have hstrip : pyStrip ("# instruction: " ++ i) = "# instruction: " ++ i :=
    pyStrip_append_of_head_not_space
      ⟨'#', (" instruction: " : String).data, by decide, by decide⟩ hi hne
  have hstart : pyStartsWith ("# instruction: " ++ i) "# instruction:" = true := by
    unfold pyStartsWith
    rw [hdecomp, data_append]
    exact isPrefixChars_append _ _
  unfold parseCommentToken
  rw [hstrip, if_pos hstart]
  unfold pyReplaceFirst
  rw [hdecomp, data_append,
    replaceFirst_of_prefixChars (isPrefixChars_append _ _), List.drop_left]
  have : (⟨(" " ++ i).data⟩ : String) = " " ++ i := str_ext rfl
  rw [this]
  exact pyStrip_space_append hi

theorem parseCommentToken_bare_hash {s : String} (hs : pyStrip s = s)
    (hne : ¬ s = "") (hnotin : isPrefixChars "instruction:".data s.data = false) :
    parseCommentToken ("# " ++ s) = s := by
  have hdecomp : ("# " ++ s : String) = "#" ++ (" " ++ s) := by
    apply str_ext
    rw [data_append, data_append, data_append]
    rw [show ("# " : String).data = "#".data ++ (" " : String).data from by decide]
    rw [List.append_assoc]
  have hstrip : pyStrip ("# " ++ s) = "# " ++ s :=
    pyStrip_append_of_head_not_space
      ⟨'#', (" " : String).data, by decide, by decide⟩ hs hne
  have hnostart : pyStartsWith ("# " ++ s) "# instruction:" = false := by
    unfold pyStartsWith
    rw [data_append]
    rw [show ("# instruction:" : String).data =
      ("# " : String).data ++ "instruction:".data from by decide]
    rw [isPrefixChars_append_both]
    exact hnotin
  have hstart : pyStartsWith ("# " ++ s) "#" = true := by
    unfold pyStartsWith
    rw [hdecomp, data_append]
    exact isPrefixChars_append _ _
  unfold parseCommentToken
  rw [hstrip, if_neg (by simp [hnostart]), if_pos hstart]
  unfold pyReplaceFirst
  rw [hdecomp, data_append,
    replaceFirst_of_prefixChars (isPrefixChars_append _ _), List.drop_left]
  have : (⟨(" " ++ s).data⟩ : String) = " " ++ s := str_ext rfl
  rw [this]
  exact pyStrip_space_append hs

theorem parseCommentToken_eq_spec (t : String) :
    parseCommentToken t = specInstructionOfComment (some t) := by
  unfold parseCommentToken specInstructionOfComment
  cases h1 : pyStartsWith (pyStrip t) "# instruction:"
  · cases h2 : pyStartsWith (pyStrip t) "#"
    · simp [h1, h2]
    · have h2' : isPrefixChars ("#" : String).data (pyStrip t).data = true := h2
      simp only [h1, h2, if_false, if_true, Bool.false_eq_true]
      unfold pyReplaceFirst
      rw [replaceFirst_of_prefixChars h2']
      rfl
  · have h1' : isPrefixChars ("# instruction:" : String).data (pyStrip t).data = true := h1
    simp only [h1, if_true]
    unfold pyReplaceFirst
    rw [replaceFirst_of_prefixChars h1']

/-- Claim C5: the instruction stored for a decoded child equals the
spec-modelled extraction of its attached comment token (prefix
`# instruction:` stripped, bare `#` stripped, empty otherwise or when no
token is attached), and decoding
`category: # instruction: Use specific style` over `[item1]` yields
instruction `"Use specific style"` with wildcards `["item1"]`. -/
theorem process_comment_extraction :
    (∀ (ca : List (String × String)) (k : String),
      extractComment ca k =
        specInstructionOfComment
          ((ca.find? (fun kv => kv.1 = k)).map (fun kv => kv.2))) ∧
    (∀ i : String, pyStrip i = i → ¬ i = "" →
      parseCommentToken ("# instruction: " ++ i) = i) ∧
    (∀ s : String, pyStrip s = s → ¬ s = "" →
      isPrefixChars "instruction:".data s.data = false →
      parseCommentToken ("# " ++ s) = s) ∧
    (∀ (ca : List (String × String)) (k : String),
      ca.find? (fun kv => kv.1 = k) = none → extractComment ca k = "") ∧
    process_ruamel_node commentedYaml =
      .vDict (.cons "category" (leafT "Use specific style" ["item1"]) .nil) := by
  refine ⟨?_, fun i hi hne => parseCommentToken_instruction hi hne,
    fun s hs hne hn => parseCommentToken_bare_hash hs hne hn, ?_, rfl⟩
  · intro ca k
    unfold extractComment
    cases h : ca.find? (fun kv => kv.1 = k) with
    | none => rfl
    | some kv => exact parseCommentToken_eq_spec kv.2
  · intro ca k h
    unfold extractComment
    rw [h]

/-- Witness for C5 at concrete comment tokens. -/
theorem process_comment_extraction_witness :
    parseCommentToken ("# instruction: " ++ "Use specific style") =
      "Use specific style" ∧
    parseCommentToken ("# " ++ "note") = "note" :=
  ⟨process_comment_extraction.2.1 "Use specific style" (by decide) (by decide),
   process_comment_extraction.2.2.1 "note" (by decide) (by decide) (by decide)⟩

/-! ### Claim C1: YAML round trip preserves the leaf observations -/

theorem strItems_ofStrings (ws : List String) :
    strItems (ofStrings ws) = ws := by
  induction ws with
  | nil => rfl
  | cons w rest ih => simp [ofStrings, strItems, pyStr, ih]

theorem wfBranch_no_wildcards : ∀ {d : Entries},
    wfBranchEntries d = true → hasKey d "wildcards" = false := by
  intro d
  induction d using Entries.recSimple with
  | h0 => intro _; rfl
  | h1 k v rest ih =>
    intro h
    simp only [wfBranchEntries, Bool.and_eq_true] at h
    rcases h with ⟨hhead, htail⟩
    have hne : ¬ k = "wildcards" := by
      by_cases hk : k = "instruction"
      · rw [hk]; decide
      · rw [if_neg hk] at hhead
        simp only [Bool.and_eq_true, Bool.not_eq_true', decide_eq_false_iff_not]
          at hhead
        exact hhead.1
    simpa [hasKey, dictGet?, if_neg hne] using ih htail

theorem trim_instr_lookup : ∀ {d : Entries} {i : String},
    trimEntries d = true → dictGet? d "instruction" = some (.vStr i) →
    pyStrip i = i := by
  intro d
  induction d using Entries.recSimple with
  | h0 => intro i _ h; simp [dictGet?] at h
  | h1 k v rest ih =>
    intro i ht h
    simp only [trimEntries, Bool.and_eq_true] at ht
    by_cases hk : k = "instruction"
    · subst hk
      simp [dictGet?] at h
      rcases ht with ⟨hhead, _⟩
      rw [if_pos rfl] at hhead
      subst h
      simpa using hhead
    · simp only [dictGet?, if_neg hk] at h
      exact ih ht.2 h

theorem wfBranch_instr_shape : ∀ {d : Entries}, wfBranchEntries d = true →
    dictGet? d "instruction" = none ∨
      ∃ i, dictGet? d "instruction" = some (.vStr i) := by
  intro d
  induction d using Entries.recSimple with
  | h0 => intro _; exact Or.inl rfl
  | h1 k v rest ih =>
    intro hbr
    simp only [wfBranchEntries, Bool.and_eq_true] at hbr
    rcases hbr with ⟨hhead, htail⟩
    by_cases hk : k = "instruction"
    · subst hk
      rw [if_pos rfl] at hhead
      cases v with
      | vStr s => exact Or.inr ⟨s, by simp [dictGet?]⟩
      | vList ws => exact absurd hhead (by simp)
      | vDict dd => exact absurd hhead (by simp)
    · simp only [dictGet?, if_neg hk]
      exact ih htail

theorem wf_instr_shape : ∀ {d : Entries}, wfNode (.vDict d) = true →
    dictGet? d "instruction" = none ∨
      ∃ i, dictGet? d "instruction" = some (.vStr i) := by
  intro d h
  simp only [wfNode, Bool.or_eq_true] at h
  rcases h with h | h
  · rcases isLeafShape_spec h with ⟨i, ws, rfl, _⟩
    exact Or.inr ⟨i, by simp [dictGet?]⟩
  · simp only [Bool.and_eq_true] at h
    exact wfBranch_instr_shape h.2

theorem rtComment_of_wf {d : Entries} (hwf : wfNode (.vDict d) = true)
    (htr : trimEntries d = true) : rtComment (.vDict d) = instrOf d := by
  rcases wf_instr_shape hwf with hnone | ⟨i, hsome⟩
  · simp [rtComment, eolTokenOf, instrOf, hnone]
  · by_cases hi : i = ""
    · subst hi
      simp [rtComment, eolTokenOf, instrOf, hsome, truthy]
    · have htrim : pyStrip i = i := trim_instr_lookup htr hsome
      simp only [rtComment, eolTokenOf, instrOf, hsome, truthy,
        Bool.not_eq_true', decide_eq_false_iff_not]
      rw [if_pos (by simpa using hi)]
      exact parseCommentToken_instruction htrim hi

theorem caLookup_none : ∀ {d : Entries} {k : String}, hasKey d k = false →
    (eolComments d).find? (fun kv => kv.1 = k) = none := by
  intro d
  induction d using Entries.recSimple with
  | h0 => intro k _; rfl
  | h1 k0 v0 rest ih =>
    intro k h
    have hk0 : ¬ k0 = k := by
      intro hh
      simp [hasKey, dictGet?, hh] at h
    have htail : hasKey rest k = false := by
      simpa [hasKey, dictGet?, if_neg hk0] using h
    by_cases hin : k0 = "instruction"
    · simp only [eolComments, if_pos hin]
      exact ih htail
    · simp only [eolComments, if_neg hin]
      cases htok : eolTokenOf v0 with
      | none => exact ih htail
      | some tok =>
        simpa [List.find?, hk0] using ih htail

theorem caLookup_eolComments : ∀ {d : Entries}, keysNodupB d = true →
    ∀ k v, dictGet? d k = some v → ¬ k = "instruction" →
    ((eolComments d).find? (fun kv => kv.1 = k)).map (fun kv => kv.2) =
      eolTokenOf v := by
  intro d
  induction d using Entries.recSimple with
  | h0 => intro _ k v h _; simp [dictGet?] at h
  | h1 k0 v0 rest ih =>
    intro hnd k v h hk
    simp only [keysNodupB, Bool.and_eq_true, Bool.not_eq_true'] at hnd
    rcases hnd with ⟨hnomem, hndrest⟩
    by_cases hk0 : k0 = k
    · subst hk0
      simp [dictGet?] at h
      subst h
      simp only [eolComments, if_neg hk]
      cases htok : eolTokenOf v0 with
      | none =>
        rw [caLookup_none hnomem]
        rfl
      | some tok =>
        simp [List.find?]
    · simp only [dictGet?, if_neg hk0] at h
      by_cases hin : k0 = "instruction"
      · simp only [eolComments, if_pos hin]
        exact ih hndrest k v h hk
      · simp only [eolComments, if_neg hin]
        cases htok : eolTokenOf v0 with
        | none => exact ih hndrest k v h hk
        | some tok =>
          simpa [List.find?, hk0] using ih hndrest k v h hk

theorem hasKey_canonRTEntries : ∀ (d : Entries) (k : String),
    ¬ k = "instruction" → hasKey (canonRTEntries d) k = hasKey d k := by
  intro d
  induction d using Entries.recSimple with
  | h0 => intro k _; rfl
  | h1 k0 v0 rest ih =>
    intro k hk
    by_cases hin : k0 = "instruction"
    · have hk0 : ¬ k0 = k := fun hh => hk (hh ▸ hin)
      simp only [canonRTEntries, if_pos hin, hasKey, dictGet?, if_neg hk0]
      exact ih k hk
    · by_cases hk0 : k0 = k
      · subst hk0
        simp [canonRTEntries, if_neg hin, hasKey, dictGet?]
      · simp only [canonRTEntries, if_neg hin, hasKey, dictGet?, if_neg hk0]
        exact ih k hk

theorem hasKey_canonRTEntries_instr : ∀ (d : Entries),
    hasKey (canonRTEntries d) "instruction" = false := by
  intro d
  induction d using Entries.recSimple with
  | h0 => rfl
  | h1 k0 v0 rest ih =>
    by_cases hin : k0 = "instruction"
    · simp only [canonRTEntries, if_pos hin]
      exact ih
    · simp only [canonRTEntries, if_neg hin, hasKey, dictGet?,
        if_neg (fun hh : k0 = "instruction" => hin hh)]
      exact ih

theorem dictSet_eq_appendEntry : ∀ {e : Entries} {k : String} (v : Node),
    hasKey e k = false → dictSet e k v = appendEntry e k v := by
  intro e
  induction e using Entries.recSimple with
  | h0 => intro k v _; rfl
  | h1 k0 v0 rest ih =>
    intro k v h
    have hk0 : ¬ k0 = k := by
      intro hh
      simp [hasKey, dictGet?, hh] at h
    have htail : hasKey rest k = false := by
      simpa [hasKey, dictGet?, if_neg hk0] using h
    simp only [dictSet, appendEntry, if_neg hk0]
    rw [ih v htail]

theorem leafObs_appendEntry_instr : ∀ (e : Entries) (p : String) (x : Node),
    leafObs (appendEntry e "instruction" x) p = leafObs e p := by
  intro e
  induction e using Entries.recSimple with
  | h0 => intro p x; simp [appendEntry, leafObs]
  | h1 k v rest ih =>
    intro p x
    simp only [appendEntry, leafObs]
    rw [ih p x]

theorem rt_canon : ∀ fuel : Nat,
    (∀ n : Node, sizeOf n ≤ fuel → wfNode n = true → trimNode n = true →
      ∀ c, setInstruction (process_ruamel_node (reconstruct_yaml_structure n)) c =
        canonRT c n) ∧
    (∀ d : Entries, sizeOf d ≤ fuel → keysNodupB d = true →
      wfBranchEntries d = true → trimEntries d = true →
      ∀ ca : List (String × String),
        (∀ k v, dictGet? d k = some v → ¬ k = "instruction" →
          ((ca.find? (fun kv => kv.1 = k)).map (fun kv => kv.2)) = eolTokenOf v) →
        processEntries ca (reconstructEntries d) = canonRTEntries d) := by
  intro fuel
  induction fuel with
  | zero =>
    constructor
    · intro n h
      cases n <;> simp at h
    · intro d h
      cases d <;> simp at h
  | succ m ih =>
    constructor
    · intro n hsz hwf htr c
      cases n with
      | vStr s => simp [wfNode] at hwf
      | vList ws => simp [wfNode] at hwf
      | vDict d =>
        by_cases hleaf : isLeafShape d = true
        · rcases isLeafShape_spec hleaf with ⟨i, ws, rfl, hsorted⟩
          have hsort : sortStrings ws = ws :=
            sortStrings_eq_self (strictSorted_sorted hsorted)
          simp [reconstruct_yaml_structure, hasKey, dictGet?, wildcardsValue,
            process_ruamel_node, strItems_ofStrings, hsort, setInstruction,
            dictSet, canonRT]
        · have hbr : keysNodupB d = true ∧ wfBranchEntries d = true := by
            simp only [wfNode, Bool.or_eq_true, Bool.and_eq_true] at hwf
            rcases hwf with h | h
            · exact absurd h hleaf
            · exact h
          have hnwc : hasKey d "wildcards" = false := wfBranch_no_wildcards hbr.2
          have hdsz : sizeOf d ≤ m := by simp at hsz; omega
          have htr' : trimEntries d = true := htr
          have hB := ih.2 d hdsz hbr.1 hbr.2 htr' (eolComments d)
            (fun k v hl hk => caLookup_eolComments hbr.1 k v hl hk)
          simp only [reconstruct_yaml_structure, hnwc, Bool.false_eq_true,
            if_false, process_ruamel_node, hB, setInstruction, canonRT]
          rw [dictSet_eq_appendEntry _ (hasKey_canonRTEntries_instr d)]
    · intro d hsz hnd hbr htr ca hca
      cases d with
      | nil => rfl
      | cons k v rest =>
        have hszrest : sizeOf rest ≤ m := by simp at hsz; omega
        have hszv : sizeOf v ≤ m := by simp at hsz; omega
        simp only [keysNodupB, Bool.and_eq_true, Bool.not_eq_true'] at hnd
        rcases hnd with ⟨hnomem, hndrest⟩
        simp only [wfBranchEntries, Bool.and_eq_true] at hbr
        rcases hbr with ⟨hbrhead, hbrrest⟩
        simp only [trimEntries, Bool.and_eq_true] at htr
        rcases htr with ⟨htrhead, htrrest⟩
        have hcarest : ∀ k' v', dictGet? rest k' = some v' → ¬ k' = "instruction" →
            ((ca.find? (fun kv => kv.1 = k')).map (fun kv => kv.2)) =
              eolTokenOf v' := by
          intro k' v' hl hk'
          have hkk : ¬ k = k' := by
            intro hh
            subst hh
            simp [hasKey, hl] at hnomem
          exact hca k' v' (by simp [dictGet?, hkk, hl]) hk'
        have htail := ih.2 rest hszrest hndrest hbrrest htrrest ca hcarest
        by_cases hk : k = "instruction"
        · simp only [reconstructEntries, if_pos hk, canonRTEntries]
          exact htail
        · have hwfv : wfNode v = true := by
            rw [if_neg hk] at hbrhead
            simp only [Bool.and_eq_true] at hbrhead
            exact hbrhead.2
          have htrv : trimNode v = true := by
            rw [if_neg hk] at htrhead
            exact htrhead
          have hhca := hca k v (by simp [dictGet?]) hk
          have hcomment : extractComment ca k = rtComment v := by
            cases hfind : ca.find? (fun kv => kv.1 = k) with
            | none =>
              have hnone : eolTokenOf v = none := by
                rw [hfind] at hhca
                simpa using hhca.symm
              simp [extractComment, rtComment, hfind, hnone]
            | some kv =>
              have hsome : eolTokenOf v = some kv.2 := by
                rw [hfind] at hhca
                simpa using hhca.symm
              simp [extractComment, rtComment, hfind, hsome]
          have hA := ih.1 v hszv hwfv htrv (extractComment ca k)
          simp only [reconstructEntries, if_neg hk, processEntries,
            canonRTEntries]
          rw [hA, hcomment, htail]

theorem hasKey_appendEntry : ∀ (e : Entries) (k0 : String) (v0 : Node)
    (k : String), ¬ k0 = k → hasKey (appendEntry e k0 v0) k = hasKey e k := by
  intro e
  induction e using Entries.recSimple with
  | h0 => intro k0 v0 k h; simp [appendEntry, hasKey, dictGet?, fun hh : k0 = k => h hh]
  | h1 k1 v1 rest ih =>
    intro k0 v0 k h
    by_cases hk1 : k1 = k
    · simp [appendEntry, hasKey, dictGet?, hk1]
    · simp only [appendEntry, hasKey, dictGet?, if_neg hk1]
      exact ih k0 v0 k h

theorem leafObs_canonRTEntries : ∀ fuel : Nat, ∀ d : Entries, ∀ p : String,
    sizeOf d ≤ fuel → wfBranchEntries d = true → trimEntries d = true →
    leafObs (canonRTEntries d) p = leafObs d p := by
  intro fuel
  induction fuel with
  | zero =>
    intro d p h _ _
    cases d <;> simp at h
  | succ m ih =>
    intro d p hsz hbr htr
    cases d with
    | nil => rfl
    | cons k v rest =>
      have hszrest : sizeOf rest ≤ m := by simp at hsz; omega
      simp only [wfBranchEntries, Bool.and_eq_true] at hbr
      rcases hbr with ⟨hbrhead, hbrrest⟩
      simp only [trimEntries, Bool.and_eq_true] at htr
      rcases htr with ⟨htrhead, htrrest⟩
      have htail := ih rest p hszrest hbrrest htrrest
      by_cases hk : k = "instruction"
      · simp only [canonRTEntries, if_pos hk, leafObs, if_pos hk]
        simpa using htail
      · have hwfv : wfNode v = true := by
          rw [if_neg hk] at hbrhead
          simp only [Bool.and_eq_true] at hbrhead
          exact hbrhead.2
        have htrv : trimNode v = true := by
          rw [if_neg hk] at htrhead
          exact htrhead
        cases v with
        | vStr s => simp [wfNode] at hwfv
        | vList ws => simp [wfNode] at hwfv
        | vDict dd =>
          have hszdd : sizeOf dd ≤ m := by simp at hsz; omega
          have hc : rtComment (.vDict dd) = instrOf dd :=
            rtComment_of_wf hwfv htrv
          simp only [canonRTEntries, if_neg hk, leafObs, if_neg hk, htail]
          congr 1
          by_cases hleaf : isLeafShape dd = true
          · rcases isLeafShape_spec hleaf with ⟨i, ws, rfl, hsorted⟩
            have hsort : sortStrings ws = ws :=
              sortStrings_eq_self (strictSorted_sorted hsorted)
            rw [hc]
            simp [canonRT, hasKey, dictGet?, wildcardsValue, instrOf,
              leafObsNode, hsort]
          · have hbrdd : keysNodupB dd = true ∧ wfBranchEntries dd = true := by
              simp only [wfNode, Bool.or_eq_true, Bool.and_eq_true] at hwfv
              rcases hwfv with h | h
              · exact absurd h hleaf
              · exact h
            have hnwc : hasKey dd "wildcards" = false :=
              wfBranch_no_wildcards hbrdd.2
            have hnwc2 : hasKey (appendEntry (canonRTEntries dd) "instruction"
                (.vStr (rtComment (.vDict dd)))) "wildcards" = false := by
              rw [hasKey_appendEntry _ _ _ _ (by decide)]
              rw [hasKey_canonRTEntries dd "wildcards" (by decide)]
              exact hnwc
            have htrdd : trimEntries dd = true := htrv
            simp only [canonRT, hnwc, Bool.false_eq_true, if_false,
              leafObsNode, hnwc2]
            rw [leafObs_appendEntry_instr]
            exact ih dd _ hszdd hbrdd.2 htrdd

/-- Claim C1 (amended): encoding a data-model tree with
`reconstruct_yaml_structure` and decoding the result with
`process_ruamel_node` preserves the full leaf observation (every leaf path
with its instruction string and wildcard list) — provided every instruction
string carries no leading/trailing whitespace.  Without that proviso the
instruction strings come back stripped (see the counterexample). -/
theorem roundtrip_preserves_leaf_observations :
    ∀ root : Entries, wfRoot root = true → trimEntries root = true →
      leafObs (entriesOf (process_ruamel_node
        (reconstruct_yaml_structure (.vDict root)))) "" = leafObs root "" := by
  intro root hwf htr
  simp only [wfRoot, Bool.and_eq_true] at hwf
  have hnwc : hasKey root "wildcards" = false := wfBranch_no_wildcards hwf.2
  have hB := (rt_canon (sizeOf root)).2 root (Nat.le_refl _) hwf.1 hwf.2 htr
    (eolComments root) (fun k v hl hk => caLookup_eolComments hwf.1 k v hl hk)
  simp only [reconstruct_yaml_structure, hnwc, Bool.false_eq_true, if_false,
    process_ruamel_node, hB, entriesOf]
  exact leafObs_canonRTEntries (sizeOf root) root "" (Nat.le_refl _) hwf.2 htr

/-- Counterexample to claim C1 as stated: a data-model tree whose single
leaf instruction is `"x "` (trailing whitespace).  The encoded comment is
stripped during decoding, so the round trip returns instruction `"x"`: the
leaf observations differ. -/
theorem roundtrip_drops_instruction_whitespace :
    wfRoot untrimmedTree = true ∧
    leafObs (entriesOf (process_ruamel_node
      (reconstruct_yaml_structure (.vDict untrimmedTree)))) "" =
        [("cat", "x", ["a"])] ∧
    leafObs untrimmedTree "" = [("cat", "x ", ["a"])] ∧
    ¬ leafObs (entriesOf (process_ruamel_node
      (reconstruct_yaml_structure (.vDict untrimmedTree)))) "" =
        leafObs untrimmedTree "" :=
  ⟨rfl, rfl, rfl, by decide⟩

/-- Witness for the amended C1 on a concrete two-level tree with trimmed
instructions. -/
theorem roundtrip_preserves_leaf_observations_witness :
    leafObs (entriesOf (process_ruamel_node
      (reconstruct_yaml_structure (.vDict trimmedTree)))) "" =
      leafObs trimmedTree "" :=
  roundtrip_preserves_leaf_observations trimmedTree rfl rfl
